import Mathlib

/-!
# Verification of the seqalign alignment engine

A shallow embedding of the `seqalign` crate: the dynamic-programming
cost-matrix builder (`src/dynprog.rs`), the operation abstraction
(`src/op/mod.rs`), the archetypal edit operations (`src/op/archetype.rs`),
and the concrete measures (`src/measures.rs`).

Conventions of the embedding:

* Rust `usize` becomes `Nat` (all arithmetic in the crate is additions and
  subtractions guarded by positivity checks, so no overflow wrapping occurs).
* `Vec<Vec<usize>>` becomes `List (List Nat)`; indexing `m[i][j]` becomes
  `mget`, which returns 0 out of range (the engine only ever indexes in
  range, so the default is never observable on the code paths modelled).
* Fallible code (`expect`, `assert`, panics) returns `Option`; `none`
  models the fatal failure.
* The two unbounded loops (`edit_script`'s backtracking loop and
  `edit_scripts`' breadth-first search) take an explicit fuel parameter;
  exhausting the fuel yields `none`, which models divergence.  Every
  theorem about a returned value is conditioned on a `some` result, so it
  transfers to the unbounded original.
-/

set_option maxHeartbeats 1000000

namespace Seqalign

/-- A pairing of two sequences (`SeqPair` in `src/lib.rs`). -/
structure SeqPair (α : Type) where
  source : List α
  target : List α

/-- The edit distance cost matrix, `Vec<Vec<usize>>` in the source. -/
abbrev CostMatrix := List (List Nat)

/-- Read cell `(i, j)` of a cost matrix.  Rust indexing panics out of
range; the engine only reads in range, and out of range we return 0. -/
def mget (cm : CostMatrix) (i j : Nat) : Nat :=
  ((cm.getD i []).getD j 0)

/-- Write cell `(i, j)` of a cost matrix (in-place assignment in Rust). -/
def mset (cm : CostMatrix) (i j v : Nat) : CostMatrix :=
  cm.set i ((cm.getD i []).set j v)

/-- An indexed edit operation (`IndexedOperation` in `src/op/mod.rs`): an
operation paired with the source/target indices where it applied (the
matrix cell after backtracking). -/
structure IndexedOperation (O : Type) where
  operation : O
  source_idx : Nat
  target_idx : Nat
  deriving DecidableEq

/-- The `Operation` trait of `src/op/mod.rs`: a backtrack rule giving the
predecessor cell, and a cost rule giving the cost of reaching a cell via
this operation (`none` = not applicable). -/
class Operation (α : Type) (O : Type) where
  backtrack : O → SeqPair α → Nat → Nat → Option (Nat × Nat)
  cost : O → SeqPair α → CostMatrix → Nat → Nat → Option Nat

/-! ## Archetypal operations (`src/op/archetype.rs`)

Each archetype struct of the source becomes one constructor carrying its
configured weight. -/

/-- The archetypal operations of `src/op/archetype.rs`, each with its
associated cost. -/
inductive ArchOp : Type where
  | Insert (w : Nat)
  | Delete (w : Nat)
  | Match
  | Substitute (w : Nat)
  | Transpose (w : Nat)
  deriving DecidableEq

/-- `backtrack` of the archetype operations, clause for clause from
`src/op/archetype.rs`. -/
def ArchOp.backtrack {α : Type} (op : ArchOp) (_seq_pair : SeqPair α)
    (source_idx target_idx : Nat) : Option (Nat × Nat) :=
  match op with
  | .Delete _ =>
      if source_idx > 0 then some (source_idx - 1, target_idx) else none
  | .Insert _ =>
      if target_idx > 0 then some (source_idx, target_idx - 1) else none
  | .Match =>
      if source_idx > 0 ∧ target_idx > 0 then
        some (source_idx - 1, target_idx - 1)
      else none
  | .Substitute _ =>
      if source_idx > 0 ∧ target_idx > 0 then
        some (source_idx - 1, target_idx - 1)
      else none
  | .Transpose _ =>
      if source_idx ≥ 2 ∧ target_idx ≥ 2 then
        some (source_idx - 2, target_idx - 2)
      else none

/-- `cost` of the archetype operations, clause for clause from
`src/op/archetype.rs`: backtrack to the predecessor cell (propagating
`none`), read its stored cost, add the operation's weight; `Match` and
`Transpose` additionally check element equalities. -/
def ArchOp.cost {α : Type} [DecidableEq α] (op : ArchOp) (seq_pair : SeqPair α)
    (cost_matrix : CostMatrix) (source_idx target_idx : Nat) : Option Nat :=
  match op with
  | .Delete w =>
      (ArchOp.backtrack (.Delete w) seq_pair source_idx target_idx).map
        fun c => mget cost_matrix c.1 c.2 + w
  | .Insert w =>
      (ArchOp.backtrack (.Insert w) seq_pair source_idx target_idx).map
        fun c => mget cost_matrix c.1 c.2 + w
  | .Match =>
      (ArchOp.backtrack .Match seq_pair source_idx target_idx).bind
        fun c =>
          if seq_pair.source.get? c.1 = seq_pair.target.get? c.2 then
            some (mget cost_matrix c.1 c.2)
          else none
  | .Substitute w =>
      (ArchOp.backtrack (.Substitute w) seq_pair source_idx target_idx).map
        fun c => mget cost_matrix c.1 c.2 + w
  | .Transpose w =>
      (ArchOp.backtrack (.Transpose w) seq_pair source_idx target_idx).bind
        fun c =>
          if seq_pair.source.get? c.1 = seq_pair.target.get? (c.2 + 1) ∧
              seq_pair.source.get? (c.1 + 1) = seq_pair.target.get? c.2 then
            some (mget cost_matrix c.1 c.2 + w)
          else none

instance {α : Type} [DecidableEq α] : Operation α ArchOp where
  backtrack := ArchOp.backtrack
  cost := ArchOp.cost

/-- The fixed weight an archetype operation adds to its predecessor's cost
(zero for `Match`), as in the cost rules of `src/op/archetype.rs`. -/
def ArchOp.weight : ArchOp → Nat
  | .Insert w => w
  | .Delete w => w
  | .Match => 0
  | .Substitute w => w
  | .Transpose w => w

/-! ## Concrete measures (`src/measures.rs`)

Each measure's operation type is a tagged union over the archetypes it
uses; `cost` and `backtrack` dispatch to the matching archetype. -/

/-- `LevenshteinOp` of `src/measures.rs`. -/
inductive LevenshteinOp : Type where
  | Insert (w : Nat)
  | Delete (w : Nat)
  | Match
  | Substitute (w : Nat)
  deriving DecidableEq

/-- The archetype a `LevenshteinOp` variant dispatches to. -/
def LevenshteinOp.toArch : LevenshteinOp → ArchOp
  | .Insert w => .Insert w
  | .Delete w => .Delete w
  | .Match => .Match
  | .Substitute w => .Substitute w

instance {α : Type} [DecidableEq α] : Operation α LevenshteinOp where
  backtrack op p i j := (LevenshteinOp.toArch op).backtrack p i j
  cost op p cm i j := (LevenshteinOp.toArch op).cost p cm i j

/-- `Levenshtein::new` of `src/measures.rs`: the ordered operation list
`[Insert, Delete, Match, Substitute]` with the given costs. -/
def Levenshtein.new (insert_cost delete_cost substitute_cost : Nat) :
    List LevenshteinOp :=
  [.Insert insert_cost, .Delete delete_cost, .Match,
   .Substitute substitute_cost]

/-- `LevenshteinDamerauOp` of `src/measures.rs`. -/
inductive LevenshteinDamerauOp : Type where
  | Insert (w : Nat)
  | Delete (w : Nat)
  | Match
  | Substitute (w : Nat)
  | Transpose (w : Nat)
  deriving DecidableEq

/-- The archetype a `LevenshteinDamerauOp` variant dispatches to. -/
def LevenshteinDamerauOp.toArch : LevenshteinDamerauOp → ArchOp
  | .Insert w => .Insert w
  | .Delete w => .Delete w
  | .Match => .Match
  | .Substitute w => .Substitute w
  | .Transpose w => .Transpose w

instance {α : Type} [DecidableEq α] : Operation α LevenshteinDamerauOp where
  backtrack op p i j := (LevenshteinDamerauOp.toArch op).backtrack p i j
  cost op p cm i j := (LevenshteinDamerauOp.toArch op).cost p cm i j

/-- `LevenshteinDamerau::new` of `src/measures.rs`. -/
def LevenshteinDamerau.new
    (insert_cost delete_cost substitute_cost transpose_cost : Nat) :
    List LevenshteinDamerauOp :=
  [.Insert insert_cost, .Delete delete_cost, .Match,
   .Substitute substitute_cost, .Transpose transpose_cost]

/-- `LCSOp` of `src/measures.rs`. -/
inductive LCSOp : Type where
  | Insert (w : Nat)
  | Delete (w : Nat)
  | Match
  deriving DecidableEq

/-- The archetype an `LCSOp` variant dispatches to. -/
def LCSOp.toArch : LCSOp → ArchOp
  | .Insert w => .Insert w
  | .Delete w => .Delete w
  | .Match => .Match

instance {α : Type} [DecidableEq α] : Operation α LCSOp where
  backtrack op p i j := (LCSOp.toArch op).backtrack p i j
  cost op p cm i j := (LCSOp.toArch op).cost p cm i j

/-- `LCS::new` of `src/measures.rs`. -/
def LCS.new (insert_cost delete_cost : Nat) : List LCSOp :=
  [.Insert insert_cost, .Delete delete_cost, .Match]

/-- A measure is built from the archetype operations: its operation type's
`cost` and `backtrack` dispatch, variant by variant, to an archetype.  The
function `f` names the archetype each operation dispatches to.  All three
measures of `src/measures.rs` satisfy this for their `toArch` map. -/
def IsArch {α O : Type} [DecidableEq α] [Operation α O] (f : O → ArchOp) : Prop :=
  (∀ (o : O) (p : SeqPair α) (i j : Nat),
      Operation.backtrack o p i j = (f o).backtrack p i j) ∧
  (∀ (o : O) (p : SeqPair α) (cm : CostMatrix) (i j : Nat),
      Operation.cost o p cm i j = (f o).cost p cm i j)

/-! ## The generic engine: best cost and backtracking (`src/op/mod.rs`) -/

/-- The accumulator loop of `BestCost::best_cost` in `src/op/mod.rs`:
`best = best.map(|b| min(cost, b)).or(Some(cost))` over the operation
list. -/
def bcLoop {α O : Type} [Operation α O] (p : SeqPair α) (cm : CostMatrix)
    (i j : Nat) : Option Nat → List O → Option Nat
  | best, [] => best
  | best, op :: rest =>
      bcLoop p cm i j
        (match Operation.cost op p cm i j with
         | some c =>
             some (match best with
                   | some b => min c b
                   | none => c)
         | none => best)
        rest

/-- `BestCost::best_cost`: the minimum cost over the measure's applicable
operations at a cell, `none` if no operation applies. -/
def best_cost {α O : Type} [Operation α O] (ops : List O) (p : SeqPair α)
    (cm : CostMatrix) (i j : Nat) : Option Nat :=
  bcLoop p cm i j none ops

/-- `Backtrack::backtrack` of `src/op/mod.rs`: the first operation in the
measure's list whose recomputed cost equals the stored cell value. -/
def backtrack {α O : Type} [Operation α O] (ops : List O) (p : SeqPair α)
    (cm : CostMatrix) (i j : Nat) : Option O :=
  match ops with
  | [] => none
  | op :: rest =>
      match Operation.cost op p cm i j with
      | some c =>
          if c = mget cm i j then some op else backtrack rest p cm i j
      | none => backtrack rest p cm i j

/-- `Backtrack::backtracks` of `src/op/mod.rs`: every operation whose
recomputed cost equals the stored cell value, in list order. -/
def backtracks {α O : Type} [Operation α O] (ops : List O) (p : SeqPair α)
    (cm : CostMatrix) (i j : Nat) : List O :=
  ops.filter fun op =>
    match Operation.cost op p cm i j with
    | some c => c = mget cm i j
    | none => false

/-! ## The cost-matrix builder (`Align::align` in `src/dynprog.rs`) -/

/-- The order in which `align` fills cells: row 0 left to right starting at
column 1 (cell `(0,0)` is skipped), then rows 1 to `m`, each across all
columns 0 to `n`. -/
def visitOrder (m n : Nat) : List (Nat × Nat) :=
  ((List.range n).map fun j => (0, j + 1)) ++
    (List.range m).flatMap fun i => (List.range (n + 1)).map fun j => (i + 1, j)

/-- The fill loop of `Align::align`: write `best_cost` into each cell in
turn; a cell with no applicable operation is the fatal
`"No applicable operation"` panic, modelled as `none`. -/
def fillCells {α O : Type} [Operation α O] (ops : List O) (p : SeqPair α) :
    List (Nat × Nat) → CostMatrix → Option CostMatrix
  | [], cm => some cm
  | c :: rest, cm =>
      match best_cost ops p cm c.1 c.2 with
      | some v => fillCells ops p rest (mset cm c.1 c.2 v)
      | none => none

/-- The result of `Align::align` (`Alignment` in `src/dynprog.rs`): the
measure, the sequence pair and the filled cost matrix. -/
structure Alignment (α O : Type) where
  measure : List O
  pair : SeqPair α
  cost_matrix : CostMatrix

/-- `Align::align` of `src/dynprog.rs`: allocate an
`(m+1) × (n+1)` matrix of zeros and fill it in visit order. -/
def align {α O : Type} [Operation α O] (ops : List O)
    (source target : List α) : Option (Alignment α O) :=
  let p : SeqPair α := ⟨source, target⟩
  (fillCells ops p (visitOrder source.length target.length)
      (List.replicate (source.length + 1)
        (List.replicate (target.length + 1) 0))).map
    fun cm => ⟨ops, p, cm⟩

/-- `Alignment::distance`: the bottom-right cell of the cost matrix. -/
def Alignment.distance {α O : Type} (a : Alignment α O) : Nat :=
  mget a.cost_matrix (a.cost_matrix.length - 1) ((a.cost_matrix.getD 0 []).length - 1)

/-! ## Single-script backtracking (`Alignment::edit_script`) -/

/-- The backtracking loop of `Alignment::edit_script`: from the current
cell, take the first operation whose cost matches the cell (`backtrack`),
move to its predecessor, record the step, stop at `(0,0)`.  Exiting the
loop away from `(0,0)` is the fatal `"Cannot backtrack to cell 0, 0"`
assertion, modelled as `none`; so is a matching operation whose own
`backtrack` is `none` (`"Cannot backtrack"`).  Fuel exhaustion models
divergence. -/
def edit_script_go {α O : Type} [Operation α O] (ops : List O) (p : SeqPair α)
    (cm : CostMatrix) :
    Nat → Nat → Nat → List (IndexedOperation O) →
    Option (List (IndexedOperation O))
  | 0, _, _, _ => none
  | fuel + 1, source_idx, target_idx, script =>
      match backtrack ops p cm source_idx target_idx with
      | some op =>
          match Operation.backtrack op p source_idx target_idx with
          | none => none
          | some (new_source_idx, new_target_idx) =>
              let script' :=
                script ++ [⟨op, new_source_idx, new_target_idx⟩]
              if new_source_idx = 0 ∧ new_target_idx = 0 then
                some script'.reverse
              else
                edit_script_go ops p cm fuel new_source_idx new_target_idx
                  script'
      | none =>
          if source_idx = 0 ∧ target_idx = 0 then some script.reverse
          else none

/-- `Alignment::edit_script`, started at the bottom-right cell.  The fuel
`m + n + 1` covers every terminating run of the source loop for measures
whose operations strictly decrease `i + j`. -/
def Alignment.edit_script {α O : Type} [Operation α O] (a : Alignment α O) :
    Option (List (IndexedOperation O)) :=
  edit_script_go a.measure a.pair a.cost_matrix
    (a.pair.source.length + a.pair.target.length + 1)
    a.pair.source.length a.pair.target.length []

/-! ## All-optimal-scripts enumeration (`Alignment::edit_scripts`) -/

/-- A breadth-first search state of `edit_scripts` (`BacktrackState` in
`src/dynprog.rs`). -/
structure BacktrackState (O : Type) where
  source_idx : Nat
  target_idx : Nat
  script : List (IndexedOperation O)
  deriving DecidableEq

/-- The inner loop of `edit_scripts`: for every operation that can lead to
the current cell's cost, backtrack (a `none` is the fatal
`"Cannot backtrack"`), and either record the completed script (predecessor
`(0,0)`) or enqueue the new state at the back of the queue. -/
def expand {α O : Type} [Operation α O] [DecidableEq O] (p : SeqPair α)
    (source_idx target_idx : Nat) (script : List (IndexedOperation O)) :
    List O →
    List (BacktrackState O) × Finset (List (IndexedOperation O)) →
    Option (List (BacktrackState O) × Finset (List (IndexedOperation O)))
  | [], st => some st
  | op :: rest, (q, scripts) =>
      match Operation.backtrack op p source_idx target_idx with
      | none => none
      | some (new_source_idx, new_target_idx) =>
          let new_script :=
            script ++ [⟨op, new_source_idx, new_target_idx⟩]
          if new_source_idx = 0 ∧ new_target_idx = 0 then
            expand p source_idx target_idx script rest
              (q, insert new_script.reverse scripts)
          else
            expand p source_idx target_idx script rest
              (q ++ [⟨new_source_idx, new_target_idx, new_script⟩], scripts)

/-- The breadth-first search of `Alignment::edit_scripts`: pop a state from
the front of the queue, expand it, repeat until the queue is empty.  Fuel
exhaustion with a non-empty queue models divergence. -/
def edit_scripts_go {α O : Type} [Operation α O] [DecidableEq O]
    (ops : List O) (p : SeqPair α) (cm : CostMatrix) :
    Nat → List (BacktrackState O) → Finset (List (IndexedOperation O)) →
    Option (Finset (List (IndexedOperation O)))
  | _, [], scripts => some scripts
  | 0, _ :: _, _ => none
  | fuel + 1, st :: q, scripts =>
      match expand p st.source_idx st.target_idx st.script
          (backtracks ops p cm st.source_idx st.target_idx) (q, scripts) with
      | none => none
      | some (q', scripts') => edit_scripts_go ops p cm fuel q' scripts'

/-- `Alignment::edit_scripts`, started from a single state at the
bottom-right cell with an empty partial script. -/
def Alignment.edit_scripts {α O : Type} [Operation α O] [DecidableEq O]
    (a : Alignment α O) (fuel : Nat) :
    Option (Finset (List (IndexedOperation O))) :=
  edit_scripts_go a.measure a.pair a.cost_matrix fuel
    [⟨a.pair.source.length, a.pair.target.length, []⟩] ∅

/-! ## Replay semantics

The spec (section 8, script validity) asks that replaying an edit script
against the source reconstructs the target.  The crate itself ships no
replay function, so the notion is defined here from the spec's operation
table: a step's indices are the cell before the step, an insert or
substitute emits the target element at its target index, a match emits the
(equal) source element, a delete emits nothing, and a transpose emits the
two source elements in swapped order. -/

/-- Modelled from the spec: the elements one step of an edit script
contributes to the rebuilt sequence. -/
def stepOutput {α : Type} (p : SeqPair α) (s : IndexedOperation ArchOp) :
    List α :=
  match s.operation with
  | .Insert _ => (p.target.get? s.target_idx).toList
  | .Delete _ => []
  | .Match => (p.source.get? s.source_idx).toList
  | .Substitute _ => (p.target.get? s.target_idx).toList
  | .Transpose _ =>
      (p.source.get? (s.source_idx + 1)).toList ++
        (p.source.get? s.source_idx).toList

/-- Modelled from the spec: replay an edit script (over a measure built
from the archetypes, named by `f`) against the source, producing the
rebuilt sequence. -/
def replay {α O : Type} (f : O → ArchOp) (p : SeqPair α)
    (script : List (IndexedOperation O)) : List α :=
  (script.map fun s => stepOutput p ⟨f s.operation, s.source_idx, s.target_idx⟩).flatten

/-- The total weight of an edit script: the sum of its steps' operation
weights. -/
def scriptWeight {O : Type} (f : O → ArchOp) (script : List (IndexedOperation O)) :
    Nat :=
  (script.map fun s => (f s.operation).weight).sum

/-- The strict lexicographic order on cells; `align` visits cells in this
order, so every cell an archetype operation reads is already filled. -/
def lexLt (a b : Nat × Nat) : Prop :=
  a.1 < b.1 ∨ (a.1 = b.1 ∧ a.2 < b.2)

/-- The zero matrix `align` allocates before filling. -/
def zeroMatrix (m n : Nat) : CostMatrix :=
  List.replicate (m + 1) (List.replicate (n + 1) 0)

/-- How much one backtrack step of each archetype decreases `i + j`:
1 for insert and delete, 2 for match and substitute, 4 for transpose. -/
def ArchOp.ijDecrease : ArchOp → Nat
  | .Insert _ => 1
  | .Delete _ => 1
  | .Match => 2
  | .Substitute _ => 2
  | .Transpose _ => 4

/-- Exchanging the roles of the two sequences exchanges insert with
delete and fixes match and substitute. -/
def LevenshteinOp.swap : LevenshteinOp → LevenshteinOp
  | .Insert w => .Delete w
  | .Delete w => .Insert w
  | .Match => .Match
  | .Substitute w => .Substitute w

/-- A backtrack walk stops at the first visit of the origin: no recorded
predecessor other than the last one is `(0, 0)`. -/
def NoMidOrigin {O : Type} (c : List (IndexedOperation O)) : Prop :=
  ∀ s ∈ c.dropLast, ¬(s.source_idx = 0 ∧ s.target_idx = 0)

/-! ## Backtrack chains

A backtrack chain records a walk from a cell down to another cell, each
step taken by an operation of the measure whose recomputed cost equals the
stored value of the cell it leaves.  The recorded indices are the
predecessor cell of each step, exactly as both backtracking algorithms
record them. -/

inductive Chain {α O : Type} [Operation α O] (ops : List O) (p : SeqPair α)
    (cm : CostMatrix) : Nat → Nat → Nat → Nat → List (IndexedOperation O) → Prop where
  | nil {i j : Nat} : Chain ops p cm i j i j []
  | cons {i j i' j' i₀ j₀ : Nat} {op : O} {rest : List (IndexedOperation O)} :
      op ∈ ops →
      Operation.cost op p cm i j = some (mget cm i j) →
      Operation.backtrack op p i j = some (i', j') →
      Chain ops p cm i' j' i₀ j₀ rest →
      Chain ops p cm i j i₀ j₀ (⟨op, i', j'⟩ :: rest)

/-- The potential of one search state: exponential in the cell's index
sum, with base one more than the number of operations. -/
def statePotential {O : Type} (k : Nat) (st : BacktrackState O) : Nat :=
  (k + 1) ^ (st.source_idx + st.target_idx)

/-- The potential of the queue: the sum of its states' potentials.  Each
dequeue strictly decreases it, so it bounds the number of dequeues. -/
def queuePotential {O : Type} (k : Nat) (q : List (BacktrackState O)) : Nat :=
  (q.map (statePotential k)).sum

/-! ## Concrete instances used by the witnesses -/

/-- The unit-weight Levenshtein measure. -/
def levUnit : List LevenshteinOp := Levenshtein.new 1 1 1

/-- The unit-weight Levenshtein operations in a different order. -/
def levUnitPerm : List LevenshteinOp :=
  [.Delete 1, .Insert 1, .Match, .Substitute 1]

/-- The alignment of `[0]` and `[1]` under `levUnit`. -/
def alignedSingle : Alignment Nat LevenshteinOp :=
  ⟨levUnit, ⟨[0], [1]⟩, [[0, 1], [1, 1]]⟩

/-- The alignment of `[0]` and `[1]` under `levUnitPerm`. -/
def alignedSinglePerm : Alignment Nat LevenshteinOp :=
  ⟨levUnitPerm, ⟨[0], [1]⟩, [[0, 1], [1, 1]]⟩

/-- The alignment of `[0, 1]` with itself under `levUnit`. -/
def alignedPair : Alignment Nat LevenshteinOp :=
  ⟨levUnit, ⟨[0, 1], [0, 1]⟩, [[0, 1, 2], [1, 0, 1], [2, 1, 0]]⟩

/-- The alignment of `[0]` and `[0, 1]` under `levUnit`. -/
def alignedAB : Alignment Nat LevenshteinOp :=
  ⟨levUnit, ⟨[0], [0, 1]⟩, [[0, 1, 2], [1, 0, 1]]⟩

/-- The alignment of `[0, 1]` and `[0]` under `levUnit`. -/
def alignedBA : Alignment Nat LevenshteinOp :=
  ⟨levUnit, ⟨[0, 1], [0]⟩, [[0, 1], [1, 0], [2, 1]]⟩

/-- The single optimal script for `[0]` against `[1]`. -/
def subScript : List (IndexedOperation LevenshteinOp) :=
  [⟨.Substitute 1, 0, 0⟩]

/-! ## Matrix bookkeeping lemmas -/

/-- The matrix allocated for sequences of lengths `m` and `n`: `m + 1` rows
of `n + 1` columns. -/
def Shape (cm : CostMatrix) (m n : Nat) : Prop :=
  cm.length = m + 1 ∧ ∀ row ∈ cm, row.length = n + 1

theorem Shape.row_length {cm : CostMatrix} {m n : Nat} (h : Shape cm m n)
    {i : Nat} (hi : i ≤ m) : (cm.getD i []).length = n + 1 := by
  have hlt : i < cm.length := by rw [h.1]; omega
  rw [List.getD_eq_getElem?_getD, List.getElem?_eq_getElem hlt]
  exact h.2 _ (List.getElem_mem hlt)

theorem Shape.replicate (m n : Nat) :
    Shape (List.replicate (m + 1) (List.replicate (n + 1) 0)) m n := by
  constructor
  · simp
  · intro row hrow
    rw [List.eq_of_mem_replicate hrow]
    simp

theorem Shape.mset {cm : CostMatrix} {m n : Nat} (h : Shape cm m n)
    {i : Nat} (hi : i ≤ m) (j v : Nat) : Shape (mset cm i j v) m n := by
  refine ⟨by simpa [Seqalign.mset] using h.1, ?_⟩
  intro row hrow
  rcases List.mem_or_eq_of_mem_set hrow with hmem | rfl
  · exact h.2 _ hmem
  · rw [List.length_set]
    exact h.row_length hi

theorem mget_eq (cm : CostMatrix) (i j : Nat) :
    mget cm i j = (cm[i]?.getD [])[j]?.getD 0 := by
  simp [mget, List.getD_eq_getElem?_getD]

theorem mget_replicate (m n i j : Nat) :
    mget (List.replicate (m + 1) (List.replicate (n + 1) 0)) i j = 0 := by
  rw [mget_eq]
  rcases Nat.lt_or_ge i (m + 1) with hi | hi
  · rw [List.getElem?_replicate, if_pos hi]
    rcases Nat.lt_or_ge j (n + 1) with hj | hj
    · simp [List.getElem?_replicate, hj]
    · simp [List.getElem?_eq_none (by simpa using hj : (List.replicate (n+1) (0:Nat)).length ≤ j)]
  · have h0 : (List.replicate (m + 1) (List.replicate (n + 1) (0:Nat)))[i]? = none :=
      List.getElem?_eq_none (by simpa using hi)
    rw [h0]
    simp

theorem mget_mset_self {cm : CostMatrix} {i j : Nat} (hi : i < cm.length)
    (hj : j < (cm.getD i []).length) (v : Nat) :
    mget (mset cm i j v) i j = v := by
  rw [mget_eq]
  unfold mset
  rw [List.getElem?_set_self hi]
  simp only [Option.getD_some]
  have hj' : j < ((cm.getD i []).set j v).length := by
    rw [List.length_set]; exact hj
  rw [List.getElem?_set_self (by simpa using hj)]
  rfl

theorem mget_mset_ne (cm : CostMatrix) {i j i' j' : Nat}
    (h : ¬(i = i' ∧ j = j')) (v : Nat) :
    mget (mset cm i j v) i' j' = mget cm i' j' := by
  rw [mget_eq, mget_eq]
  unfold mset
  rcases eq_or_ne i i' with rfl | hi
  · have hj : j ≠ j' := fun hjj => h ⟨rfl, hjj⟩
    by_cases hlen : i < cm.length
    · rw [List.getElem?_set_self hlen]
      simp only [Option.getD_some]
      rw [List.getElem?_set_ne hj]
      rw [List.getElem?_eq_getElem hlen]
      simp only [Option.getD_some]
      rw [List.getD_eq_getElem?_getD, List.getElem?_eq_getElem hlen]
      rfl
    · rw [List.set_eq_of_length_le (by omega)]
  · rw [List.getElem?_set_ne hi]

/-! ## Characterizing `best_cost` -/

section BestCostLemmas

variable {α O : Type} [Operation α O] (p : SeqPair α) (cm : CostMatrix) (i j : Nat)

theorem bcLoop_none_iff :
    ∀ (l : List O) (acc : Option Nat),
      bcLoop p cm i j acc l = none ↔
        acc = none ∧ ∀ op ∈ l, Operation.cost op p cm i j = none := by
  intro l
  induction l with
  | nil => intro acc; simp [bcLoop]
  | cons op rest ih =>
      intro acc
      simp only [bcLoop]
      cases hc : Operation.cost op p cm i j with
      | some c =>
          rw [ih]
          constructor
          · rintro ⟨h1, -⟩
            cases acc <;> simp at h1
          · rintro ⟨-, h2⟩
            exact absurd (h2 op (by simp)) (by simp [hc])
      | none =>
          rw [ih]
          constructor
          · rintro ⟨h1, h2⟩
            refine ⟨h1, ?_⟩
            intro o ho
            rcases List.mem_cons.mp ho with rfl | hmem
            · exact hc
            · exact h2 _ hmem
          · rintro ⟨h1, h2⟩
            exact ⟨h1, fun o ho => h2 o (List.mem_cons_of_mem _ ho)⟩

theorem bcLoop_some_spec :
    ∀ (l : List O) (acc : Option Nat) (v : Nat),
      bcLoop p cm i j acc l = some v →
        (acc = some v ∨ ∃ op ∈ l, Operation.cost op p cm i j = some v) ∧
        (∀ b, acc = some b → v ≤ b) ∧
        (∀ op ∈ l, ∀ c, Operation.cost op p cm i j = some c → v ≤ c) := by
  intro l
  induction l with
  | nil =>
      intro acc v h
      simp only [bcLoop] at h
      subst h
      exact ⟨Or.inl rfl, fun b hb => by simp_all, by simp⟩
  | cons op rest ih =>
      intro acc v h
      simp only [bcLoop] at h
      cases hc : Operation.cost op p cm i j with
      | some c =>
          rw [hc] at h
          obtain ⟨hattain, hacc, hrest⟩ := ih _ v h
          cases acc with
          | none =>
              refine ⟨?_, by simp, ?_⟩
              · rcases hattain with hv | ⟨o, ho, hco⟩
                · exact Or.inr ⟨op, by simp, by rw [hc, ← Option.some_inj.mp hv]⟩
                · exact Or.inr ⟨o, List.mem_cons_of_mem _ ho, hco⟩
              · intro o ho c' hc'
                rcases List.mem_cons.mp ho with rfl | hmem
                · have hvc := hacc c (by rfl)
                  rw [hc'] at hc
                  have hcc : c' = c := Option.some_inj.mp hc
                  omega
                · exact hrest o hmem c' hc'
          | some b =>
              have hvle : v ≤ min c b := by
                rcases hattain with hv | ⟨o, ho, hco⟩
                · exact le_of_eq (Option.some_inj.mp hv).symm
                · exact hacc _ rfl
              refine ⟨?_, ?_, ?_⟩
              · rcases hattain with hv | ⟨o, ho, hco⟩
                · have hv2 : min c b = v := Option.some_inj.mp hv
                  rcases Nat.le_total c b with hcb | hcb
                  · exact Or.inr ⟨op, by simp, by rw [hc, ← hv2, min_eq_left hcb]⟩
                  · exact Or.inl (by rw [← hv2, min_eq_right hcb])
                · exact Or.inr ⟨o, List.mem_cons_of_mem _ ho, hco⟩
              · intro b' hb'
                have hb2 : b = b' := Option.some_inj.mp hb'
                rw [← hb2]
                exact le_trans hvle (Nat.min_le_right _ _)
              · intro o ho c' hc'
                rcases List.mem_cons.mp ho with rfl | hmem
                · rw [hc'] at hc
                  have hcc : c' = c := Option.some_inj.mp hc
                  rw [hcc]
                  exact le_trans hvle (Nat.min_le_left _ _)
                · exact hrest o hmem c' hc'
      | none =>
          rw [hc] at h
          obtain ⟨hattain, hacc, hrest⟩ := ih _ v h
          refine ⟨?_, hacc, ?_⟩
          · rcases hattain with hv | ⟨o, ho, hco⟩
            · exact Or.inl hv
            · exact Or.inr ⟨o, List.mem_cons_of_mem _ ho, hco⟩
          · intro o ho c' hc'
            rcases List.mem_cons.mp ho with rfl | hmem
            · rw [hc'] at hc; exact absurd hc (by simp)
            · exact hrest o hmem c' hc'

theorem best_cost_none_iff (ops : List O) :
    best_cost ops p cm i j = none ↔
      ∀ op ∈ ops, Operation.cost op p cm i j = none := by
  unfold best_cost
  rw [bcLoop_none_iff]
  simp

theorem best_cost_some_spec {ops : List O} {v : Nat}
    (h : best_cost ops p cm i j = some v) :
    (∃ op ∈ ops, Operation.cost op p cm i j = some v) ∧
      ∀ op ∈ ops, ∀ c, Operation.cost op p cm i j = some c → v ≤ c := by
  obtain ⟨hattain, -, hrest⟩ := bcLoop_some_spec p cm i j ops none v h
  refine ⟨?_, hrest⟩
  rcases hattain with hv | hv
  · simp at hv
  · exact hv

theorem best_cost_isSome_of_mem {ops : List O} {op : O} (hmem : op ∈ ops)
    (hcost : (Operation.cost op p cm i j).isSome) :
    (best_cost ops p cm i j).isSome := by
  cases h : best_cost ops p cm i j with
  | some v => rfl
  | none =>
      rw [best_cost_none_iff] at h
      rw [h op hmem] at hcost
      simp at hcost

theorem best_cost_le_of_mem {ops : List O} {op : O} {c : Nat} (hmem : op ∈ ops)
    (hcost : Operation.cost op p cm i j = some c) :
    ∃ v, best_cost ops p cm i j = some v ∧ v ≤ c := by
  have hs := best_cost_isSome_of_mem p cm i j hmem (by simp [hcost])
  cases h : best_cost ops p cm i j with
  | none => rw [h] at hs; simp at hs
  | some v =>
      exact ⟨v, rfl, (best_cost_some_spec p cm i j h).2 op hmem c hcost⟩

theorem best_cost_perm {ops₁ ops₂ : List O} (hperm : ops₁.Perm ops₂) :
    best_cost ops₁ p cm i j = best_cost ops₂ p cm i j := by
  cases h1 : best_cost ops₁ p cm i j with
  | none =>
      rw [best_cost_none_iff] at h1
      symm
      rw [best_cost_none_iff]
      exact fun op hop => h1 op (hperm.mem_iff.mpr hop)
  | some v =>
      obtain ⟨⟨op, hop, hcost⟩, hmin⟩ := best_cost_some_spec p cm i j h1
      obtain ⟨w, hw, hwle⟩ :=
        best_cost_le_of_mem p cm i j (hperm.mem_iff.mp hop) hcost
      obtain ⟨⟨op', hop', hcost'⟩, -⟩ := best_cost_some_spec p cm i j hw
      have hvw : v ≤ w := hmin op' (hperm.mem_iff.mpr hop') w hcost'
      rw [hw]
      exact congrArg some (Nat.le_antisymm hwle hvw).symm

theorem best_cost_congr {cm' : CostMatrix} {ops : List O}
    (h : ∀ op ∈ ops, Operation.cost op p cm i j = Operation.cost op p cm' i j) :
    best_cost ops p cm i j = best_cost ops p cm' i j := by
  unfold best_cost
  suffices hgen : ∀ (l : List O) (acc : Option Nat),
      (∀ op ∈ l, Operation.cost op p cm i j = Operation.cost op p cm' i j) →
      bcLoop p cm i j acc l = bcLoop p cm' i j acc l by
    exact hgen ops none h
  intro l
  induction l with
  | nil => intro acc _; simp [bcLoop]
  | cons op rest ih =>
      intro acc hl
      simp only [bcLoop]
      rw [← hl op (by simp)]
      exact ih _ fun o ho => hl o (List.mem_cons_of_mem _ ho)

end BestCostLemmas

/-! ## The fill order -/

theorem mem_visitOrder {m n i j : Nat} :
    (i, j) ∈ visitOrder m n ↔ i ≤ m ∧ j ≤ n ∧ ¬(i = 0 ∧ j = 0) := by
  unfold visitOrder
  simp only [List.mem_append, List.mem_map, List.mem_range, List.mem_flatMap,
    Prod.mk.injEq]
  constructor
  · rintro (⟨a, ha, h0, hj⟩ | ⟨a, ha, b, ⟨hb, hi, hj⟩⟩) <;> omega
  · rintro ⟨hi, hj, h00⟩
    rcases Nat.eq_zero_or_pos i with rfl | hpos
    · exact Or.inl ⟨j - 1, by omega, rfl, by omega⟩
    · exact Or.inr ⟨i - 1, by omega, j, hj.trans_lt (by omega), by omega, rfl⟩

theorem pairwise_flatMap_rows (n : Nat) :
    ∀ m, List.Pairwise lexLt
      ((List.range m).flatMap fun i =>
        (List.range (n + 1)).map fun j => (i + 1, j)) := by
  intro m
  induction m with
  | zero => simp
  | succ m ih =>
      rw [List.range_succ, List.flatMap_append]
      rw [List.pairwise_append]
      refine ⟨ih, ?_, ?_⟩
      · simp only [List.flatMap_cons, List.flatMap_nil, List.append_nil]
        rw [List.pairwise_map]
        exact (List.pairwise_lt_range (n + 1)).imp fun h => Or.inr ⟨rfl, h⟩
      · intro a ha b hb
        simp only [List.mem_flatMap, List.mem_map, List.mem_range] at ha
        simp only [List.flatMap_cons, List.flatMap_nil, List.append_nil,
          List.mem_map, List.mem_range] at hb
        obtain ⟨ia, hia, ja, -, rfl⟩ := ha
        obtain ⟨jb, -, rfl⟩ := hb
        exact Or.inl (by omega)

theorem visitOrder_pairwise (m n : Nat) :
    List.Pairwise lexLt (visitOrder m n) := by
  unfold visitOrder
  rw [List.pairwise_append]
  refine ⟨?_, pairwise_flatMap_rows n m, ?_⟩
  · rw [List.pairwise_map]
    exact (List.pairwise_lt_range n).imp fun h => Or.inr ⟨rfl, by omega⟩
  · intro a ha b hb
    simp only [List.mem_map, List.mem_range] at ha
    simp only [List.mem_flatMap, List.mem_map, List.mem_range] at hb
    obtain ⟨ja, -, rfl⟩ := ha
    obtain ⟨ib, -, jb, -, rfl⟩ := hb
    exact Or.inl (by omega)

theorem visitOrder_nodup (m n : Nat) : (visitOrder m n).Nodup :=
  (visitOrder_pairwise m n).imp fun h => by
    rcases h with h | ⟨h1, h2⟩
    · intro he; rw [he] at h; omega
    · intro he; rw [he] at h2; omega

theorem zero_not_mem_visitOrder (m n : Nat) : (0, 0) ∉ visitOrder m n := by
  rw [mem_visitOrder]
  simp

theorem mem_visitOrder' {m n : Nat} {c : Nat × Nat} :
    c ∈ visitOrder m n ↔ c.1 ≤ m ∧ c.2 ≤ n ∧ ¬(c.1 = 0 ∧ c.2 = 0) := by
  obtain ⟨i, j⟩ := c
  exact mem_visitOrder

/-! ## The fill loop -/

section FillLemmas

variable {α O : Type} [Operation α O] (ops : List O) (p : SeqPair α)

theorem fillCells_append (l₁ l₂ : List (Nat × Nat)) (cm : CostMatrix) :
    fillCells ops p (l₁ ++ l₂) cm =
      (fillCells ops p l₁ cm).bind (fillCells ops p l₂) := by
  induction l₁ generalizing cm with
  | nil => simp [fillCells]
  | cons c rest ih =>
      simp only [List.cons_append, fillCells]
      cases best_cost ops p cm c.1 c.2 with
      | some v => exact ih _
      | none => rfl

theorem fillCells_shape {m n : Nat} :
    ∀ (cells : List (Nat × Nat)) (cm cm' : CostMatrix), Shape cm m n →
      (∀ c ∈ cells, c.1 ≤ m) →
      fillCells ops p cells cm = some cm' → Shape cm' m n := by
  intro cells
  induction cells with
  | nil =>
      intro cm cm' hshape _ h
      simp only [fillCells] at h
      rwa [← Option.some_inj.mp h]
  | cons c rest ih =>
      intro cm cm' hshape hb h
      simp only [fillCells] at h
      cases hbc : best_cost ops p cm c.1 c.2 with
      | none => rw [hbc] at h; simp at h
      | some v =>
          rw [hbc] at h
          exact ih _ _ (hshape.mset (hb c (by simp)) c.2 v)
            (fun c' hc' => hb c' (List.mem_cons_of_mem _ hc')) h

theorem fillCells_untouched {i j : Nat} :
    ∀ (cells : List (Nat × Nat)) (cm cm' : CostMatrix),
      fillCells ops p cells cm = some cm' →
      (∀ c ∈ cells, ¬(c.1 = i ∧ c.2 = j)) →
      mget cm' i j = mget cm i j := by
  intro cells
  induction cells with
  | nil =>
      intro cm cm' h _
      simp only [fillCells] at h
      rw [← Option.some_inj.mp h]
  | cons c rest ih =>
      intro cm cm' h hne
      simp only [fillCells] at h
      cases hbc : best_cost ops p cm c.1 c.2 with
      | none => rw [hbc] at h; simp at h
      | some v =>
          rw [hbc] at h
          rw [ih _ _ h fun c' hc' => hne c' (List.mem_cons_of_mem _ hc')]
          exact mget_mset_ne cm (hne c (by simp)) v

end FillLemmas

/-! ## What `align` produces -/

section AlignLemmas

variable {α O : Type} [Operation α O]

theorem align_elim {ops : List O} {src tgt : List α} {a : Alignment α O}
    (h : align ops src tgt = some a) :
    a.measure = ops ∧ a.pair = ⟨src, tgt⟩ ∧
      fillCells ops ⟨src, tgt⟩ (visitOrder src.length tgt.length)
        (zeroMatrix src.length tgt.length) = some a.cost_matrix := by
  have h' : (fillCells ops ⟨src, tgt⟩ (visitOrder src.length tgt.length)
      (zeroMatrix src.length tgt.length)).map
      (fun cm => (⟨ops, ⟨src, tgt⟩, cm⟩ : Alignment α O)) = some a := h
  cases hf : fillCells ops ⟨src, tgt⟩ (visitOrder src.length tgt.length)
      (zeroMatrix src.length tgt.length) with
  | none => rw [hf] at h'; simp at h'
  | some cm =>
      rw [hf] at h'
      simp only [Option.map_some'] at h'
      obtain rfl := Option.some_inj.mp h'
      exact ⟨rfl, rfl, rfl⟩

theorem align_shape {ops : List O} {src tgt : List α} {a : Alignment α O}
    (h : align ops src tgt = some a) :
    Shape a.cost_matrix src.length tgt.length := by
  obtain ⟨-, -, hfill⟩ := align_elim h
  exact fillCells_shape ops _ _ _ _ (Shape.replicate _ _)
    (fun c hc => (mem_visitOrder'.mp hc).1) hfill

theorem align_zero_cell {ops : List O} {src tgt : List α} {a : Alignment α O}
    (h : align ops src tgt = some a) :
    mget a.cost_matrix 0 0 = 0 := by
  obtain ⟨-, -, hfill⟩ := align_elim h
  rw [fillCells_untouched ops _ _ _ _ hfill
    (fun c hc hc00 => by
      have := mem_visitOrder'.mp hc
      omega)]
  exact mget_replicate _ _ _ _

/-- The fill's write-once discipline: a visited cell's final value is the
best cost computed over the matrix state just before that cell was
visited; the earlier cells are exactly the already-filled ones. -/
theorem fill_visit_spec {ops : List O} {src tgt : List α} {a : Alignment α O}
    (h : align ops src tgt = some a)
    {pre suf : List (Nat × Nat)} {c : Nat × Nat}
    (hsplit : visitOrder src.length tgt.length = pre ++ c :: suf) :
    ∃ cmPre, fillCells ops ⟨src, tgt⟩ pre
        (zeroMatrix src.length tgt.length) = some cmPre ∧
      fillCells ops ⟨src, tgt⟩ (c :: suf) cmPre = some a.cost_matrix ∧
      best_cost ops ⟨src, tgt⟩ cmPre c.1 c.2 =
        some (mget a.cost_matrix c.1 c.2) := by
  obtain ⟨-, -, hfill⟩ := align_elim h
  rw [hsplit, fillCells_append] at hfill
  cases hpre : fillCells ops ⟨src, tgt⟩ pre (zeroMatrix src.length tgt.length) with
  | none => rw [hpre] at hfill; simp at hfill
  | some cmPre =>
      rw [hpre] at hfill
      simp only [Option.some_bind] at hfill
      have hrest := hfill
      simp only [fillCells] at hfill
      cases hbc : best_cost ops ⟨src, tgt⟩ cmPre c.1 c.2 with
      | none => rw [hbc] at hfill; simp at hfill
      | some v =>
          rw [hbc] at hfill
          refine ⟨cmPre, rfl, hrest, ?_⟩
          have hnodup := visitOrder_nodup src.length tgt.length
          rw [hsplit] at hnodup
          have hnsuf : c ∉ suf := by
            have h2 := hnodup.of_append_right
            rw [List.nodup_cons] at h2
            exact h2.1
          have hmem : c ∈ visitOrder src.length tgt.length := by
            rw [hsplit]; exact List.mem_append_right _ (by simp)
          obtain ⟨hcm, hcn, -⟩ := mem_visitOrder'.mp hmem
          have hshape : Shape cmPre src.length tgt.length := by
            refine fillCells_shape ops _ _ _ _ (Shape.replicate _ _) ?_ hpre
            intro c' hc'
            have hcv : c' ∈ visitOrder src.length tgt.length := by
              rw [hsplit]; exact List.mem_append_left _ hc'
            exact (mem_visitOrder'.mp hcv).1
          have huntouched := fillCells_untouched ops ⟨src, tgt⟩ suf _ _ hfill
            (fun c' hc' hcc => by
              refine hnsuf ?_
              have hcc' : c' = c := Prod.ext hcc.1 hcc.2
              rwa [← hcc'])
          rw [hbc, huntouched]
          rw [mget_mset_self (by rw [hshape.1]; omega)
            (by rw [hshape.row_length hcm]; omega)]

end AlignLemmas

/-! ## Facts about the archetype operations -/

section ArchFacts

theorem ArchOp.backtrack_dec {α : Type} {o : ArchOp} {p : SeqPair α} {i j i' j' : Nat}
    (h : o.backtrack p i j = some (i', j')) :
    i' ≤ i ∧ j' ≤ j ∧ i' + j' + o.ijDecrease = i + j := by
  cases o <;> simp only [ArchOp.backtrack] at h <;> split at h <;>
    simp_all [ArchOp.ijDecrease] <;> omega

theorem lexLt_trans {a b c : Nat × Nat} (h1 : lexLt a b) (h2 : lexLt b c) :
    lexLt a c := by
  unfold lexLt at *
  omega

theorem lexLt_ne {a b : Nat × Nat} (h : lexLt a b) : a ≠ b := by
  unfold lexLt at h
  intro he
  rw [he] at h
  omega

theorem ArchOp.backtrack_lexLt {α : Type} {o : ArchOp} {p : SeqPair α} {i j i' j' : Nat}
    (h : o.backtrack p i j = some (i', j')) : lexLt (i', j') (i, j) := by
  obtain ⟨h1, h2, h3⟩ := ArchOp.backtrack_dec h
  unfold lexLt
  cases o <;> simp only [ArchOp.ijDecrease] at h3 <;> omega

theorem ArchOp.cost_none_of_backtrack_none {α : Type} [DecidableEq α] {o : ArchOp}
    {p : SeqPair α} (cm : CostMatrix) {i j : Nat} (h : o.backtrack p i j = none) :
    o.cost p cm i j = none := by
  cases o <;> simp [ArchOp.cost, h]

/-- The cost rule of every archetype: when applicable, the predecessor
cell's stored value plus the operation's fixed weight. -/
theorem ArchOp.cost_some_elim {α : Type} [DecidableEq α] {o : ArchOp} {p : SeqPair α}
    {cm : CostMatrix} {i j c : Nat} (h : o.cost p cm i j = some c) :
    ∃ i' j', o.backtrack p i j = some (i', j') ∧
      c = mget cm i' j' + o.weight := by
  cases o <;> simp only [ArchOp.cost] at h <;>
    cases hb : ArchOp.backtrack _ p i j <;> rw [hb] at h <;>
    simp_all [ArchOp.weight]
  case Insert.some w pr =>
    obtain ⟨i', j'⟩ := pr
    exact ⟨i', j', rfl, h.symm⟩
  case Delete.some w pr =>
    obtain ⟨i', j'⟩ := pr
    exact ⟨i', j', rfl, h.symm⟩
  case Match.some pr =>
    obtain ⟨i', j'⟩ := pr
    exact ⟨i', j', rfl, h.2.symm⟩
  case Substitute.some w pr =>
    obtain ⟨i', j'⟩ := pr
    exact ⟨i', j', rfl, h.symm⟩
  case Transpose.some w pr =>
    obtain ⟨i', j'⟩ := pr
    exact ⟨i', j', rfl, h.2.symm⟩

theorem ArchOp.cost_congr {α : Type} [DecidableEq α] {o : ArchOp} {p : SeqPair α} {cm₁ cm₂ : CostMatrix}
    {i j i' j' : Nat} (hb : o.backtrack p i j = some (i', j'))
    (hm : mget cm₁ i' j' = mget cm₂ i' j') :
    o.cost p cm₁ i j = o.cost p cm₂ i j := by
  cases o <;> simp only [ArchOp.cost] <;> rw [hb] <;> simp only [Option.map_some', Option.some_bind]
  case Match => split <;> first | rfl | rw [hm]
  case Transpose w => split <;> first | rfl | rw [hm]
  all_goals rw [hm]

theorem ArchOp.backtrack_zero {α : Type} (o : ArchOp) (p : SeqPair α) :
    o.backtrack p 0 0 = none := by
  cases o <;> simp [ArchOp.backtrack]

end ArchFacts

/-! ## The three shipped measures are built from the archetypes -/

theorem levenshtein_isArch {α : Type} [DecidableEq α] :
    IsArch (α := α) LevenshteinOp.toArch := by
  constructor
  · intro o p i j; cases o <;> rfl
  · intro o p cm i j; cases o <;> rfl

theorem levenshteinDamerau_isArch {α : Type} [DecidableEq α] :
    IsArch (α := α) LevenshteinDamerauOp.toArch := by
  constructor
  · intro o p i j; cases o <;> rfl
  · intro o p cm i j; cases o <;> rfl

theorem lcs_isArch {α : Type} [DecidableEq α] :
    IsArch (α := α) LCSOp.toArch := by
  constructor
  · intro o p i j; cases o <;> rfl
  · intro o p cm i j; cases o <;> rfl

/-! ## The filled matrix satisfies its recurrence (archetype measures)

For a measure built from the archetypes, every operation reads only the
strictly lex-earlier cell it backtracks to, so the value best-cost saw at
fill time is the value in the finished matrix: the finished matrix
satisfies the recurrence `cell = best_cost(finished matrix)` at every
visited cell. -/

theorem arch_matrix_char {α O : Type} [DecidableEq α] [Operation α O]
    {f : O → ArchOp} (hf : IsArch (α := α) f)
    {ops : List O} {src tgt : List α} {a : Alignment α O}
    (h : align ops src tgt = some a)
    {i j : Nat} (hmem : (i, j) ∈ visitOrder src.length tgt.length) :
    best_cost ops ⟨src, tgt⟩ a.cost_matrix i j =
      some (mget a.cost_matrix i j) := by
  obtain ⟨pre, suf, hsplit⟩ := List.append_of_mem hmem
  obtain ⟨cmPre, hpre, hrest, hbest⟩ := fill_visit_spec h hsplit
  have hpw := visitOrder_pairwise src.length tgt.length
  rw [hsplit] at hpw
  have hsuf : ∀ c ∈ suf, lexLt (i, j) c :=
    (List.pairwise_cons.mp (List.pairwise_append.mp hpw).2.1).1
  have hcong : ∀ op ∈ ops,
      Operation.cost op ⟨src, tgt⟩ a.cost_matrix i j =
        Operation.cost op ⟨src, tgt⟩ cmPre i j := by
    intro op hop
    rw [hf.2 op, hf.2 op]
    cases hb : (f op).backtrack (⟨src, tgt⟩ : SeqPair α) i j with
    | none =>
        rw [ArchOp.cost_none_of_backtrack_none _ hb,
          ArchOp.cost_none_of_backtrack_none _ hb]
    | some pr =>
        obtain ⟨i', j'⟩ := pr
        refine ArchOp.cost_congr hb ?_
        have hlex : lexLt (i', j') (i, j) := ArchOp.backtrack_lexLt hb
        refine fillCells_untouched ops ⟨src, tgt⟩ ((i, j) :: suf) _ _ hrest ?_
        intro c hc hcc
        have hcij : c = (i', j') := Prod.ext hcc.1 hcc.2
        rcases List.mem_cons.mp hc with rfl | hcs
        · exact lexLt_ne hlex hcij.symm
        · exact lexLt_ne (lexLt_trans hlex (hsuf c hcs)) hcij.symm
  calc best_cost ops ⟨src, tgt⟩ a.cost_matrix i j
      = best_cost ops ⟨src, tgt⟩ cmPre i j := best_cost_congr _ _ _ _ hcong
    _ = some (mget a.cost_matrix i j) := hbest

/-! ## The first-matching-operation backtrack -/

section BacktrackLemmas

variable {α O : Type} [Operation α O] (p : SeqPair α) (cm : CostMatrix) (i j : Nat)

theorem backtrack_some_elim :
    ∀ {ops : List O} {op : O}, backtrack ops p cm i j = some op →
      op ∈ ops ∧ Operation.cost op p cm i j = some (mget cm i j) := by
  intro ops
  induction ops with
  | nil => intro op h; simp [backtrack] at h
  | cons o rest ih =>
      intro op h
      simp only [backtrack] at h
      split at h
      next c hc =>
        split at h
        next hcm =>
          obtain rfl := Option.some_inj.mp h
          exact ⟨by simp, by rw [hc, hcm]⟩
        next hcm =>
          obtain ⟨hmem, hcost⟩ := ih h
          exact ⟨List.mem_cons_of_mem _ hmem, hcost⟩
      next hc =>
        obtain ⟨hmem, hcost⟩ := ih h
        exact ⟨List.mem_cons_of_mem _ hmem, hcost⟩

theorem backtrack_isSome_of :
    ∀ {ops : List O}, (∃ op ∈ ops, Operation.cost op p cm i j = some (mget cm i j)) →
      ∃ op, backtrack ops p cm i j = some op := by
  intro ops
  induction ops with
  | nil => rintro ⟨op, hop, -⟩; simp at hop
  | cons o rest ih =>
      rintro ⟨op, hop, hcost⟩
      cases hc : Operation.cost o p cm i j with
      | some c =>
          by_cases hcm : c = mget cm i j
          · exact ⟨o, by simp only [backtrack, hc]; rw [if_pos hcm]⟩
          · rcases List.mem_cons.mp hop with rfl | hmem
            · rw [hcost] at hc
              exact absurd (Option.some_inj.mp hc).symm hcm
            · obtain ⟨op', hop'⟩ := ih ⟨op, hmem, hcost⟩
              exact ⟨op', by
                simp only [backtrack, hc]
                rw [if_neg hcm]
                exact hop'⟩
      | none =>
          rcases List.mem_cons.mp hop with rfl | hmem
          · rw [hcost] at hc; simp at hc
          · obtain ⟨op', hop'⟩ := ih ⟨op, hmem, hcost⟩
            exact ⟨op', by simp only [backtrack, hc]; exact hop'⟩

theorem mem_backtracks {ops : List O} {op : O} :
    op ∈ backtracks ops p cm i j ↔
      op ∈ ops ∧ Operation.cost op p cm i j = some (mget cm i j) := by
  unfold backtracks
  rw [List.mem_filter]
  constructor
  · rintro ⟨hmem, hc⟩
    refine ⟨hmem, ?_⟩
    cases hco : Operation.cost op p cm i j with
    | none => rw [hco] at hc; simp at hc
    | some c =>
        rw [hco] at hc
        simp only [decide_eq_true_eq] at hc
        rw [hc]
  · rintro ⟨hmem, hc⟩
    exact ⟨hmem, by rw [hc]; simp⟩

end BacktrackLemmas

theorem replay_append {α O : Type} (f : O → ArchOp) (p : SeqPair α)
    (xs ys : List (IndexedOperation O)) :
    replay f p (xs ++ ys) = replay f p xs ++ replay f p ys := by
  simp [replay]

theorem scriptWeight_append {O : Type} (f : O → ArchOp)
    (xs ys : List (IndexedOperation O)) :
    scriptWeight f (xs ++ ys) = scriptWeight f xs + scriptWeight f ys := by
  simp [scriptWeight]

/-- Replaying a backtrack chain that reaches the origin rebuilds the
target prefix up to the chain's top target index. -/
theorem chain_replay {α O : Type} [DecidableEq α] [Operation α O]
    {f : O → ArchOp} (hf : IsArch (α := α) f) {ops : List O} {p : SeqPair α}
    {cm : CostMatrix} :
    ∀ (l : List (IndexedOperation O)) (i j : Nat),
      Chain ops p cm i j 0 0 l → replay f p l.reverse = p.target.take j := by
  intro l
  induction l with
  | nil =>
      intro i j hc
      cases hc
      simp [replay]
  | cons step rest ih =>
      intro i j hc
      cases hc with
      | cons hmem hcost hbt hrest =>
          rename_i i' j' op
          rw [List.reverse_cons, replay_append]
          rw [ih i' j' hrest]
          rw [hf.2 op] at hcost
          rw [hf.1 op] at hbt
          cases hfo : f op with
          | Insert w =>
              rw [hfo] at hbt
              simp only [ArchOp.backtrack] at hbt
              split at hbt
              · obtain ⟨rfl, rfl⟩ := Prod.mk.injEq .. ▸ Option.some_inj.mp hbt
                have hj : j - 1 + 1 = j := by omega
                rw [show replay f p [⟨op, i, j - 1⟩] =
                    (p.target.get? (j - 1)).toList by
                  simp [replay, stepOutput, hfo]]
                simp only [List.get?_eq_getElem?]
                rw [← List.take_succ, hj]
              · simp at hbt
          | Delete w =>
              rw [hfo] at hbt
              simp only [ArchOp.backtrack] at hbt
              split at hbt
              · obtain ⟨rfl, rfl⟩ := Prod.mk.injEq .. ▸ Option.some_inj.mp hbt
                rw [show replay f p [⟨op, i - 1, j⟩] = [] by
                  simp [replay, stepOutput, hfo]]
                simp
              · simp at hbt
          | Match =>
              rw [hfo] at hbt
              rw [hfo] at hcost
              simp only [ArchOp.backtrack] at hbt
              split at hbt
              · obtain ⟨rfl, rfl⟩ := Prod.mk.injEq .. ▸ Option.some_inj.mp hbt
                simp only [ArchOp.cost, ArchOp.backtrack] at hcost
                rw [if_pos (by omega : i > 0 ∧ j > 0)] at hcost
                simp only [Option.some_bind] at hcost
                have heq : p.source.get? (i - 1) = p.target.get? (j - 1) := by
                  by_contra hne
                  rw [if_neg hne] at hcost
                  simp at hcost
                have hj : j - 1 + 1 = j := by omega
                rw [show replay f p [⟨op, i - 1, j - 1⟩] =
                    (p.source.get? (i - 1)).toList by
                  simp [replay, stepOutput, hfo]]
                rw [heq]
                simp only [List.get?_eq_getElem?]
                rw [← List.take_succ, hj]
              · simp at hbt
          | Substitute w =>
              rw [hfo] at hbt
              simp only [ArchOp.backtrack] at hbt
              split at hbt
              · obtain ⟨rfl, rfl⟩ := Prod.mk.injEq .. ▸ Option.some_inj.mp hbt
                have hj : j - 1 + 1 = j := by omega
                rw [show replay f p [⟨op, i - 1, j - 1⟩] =
                    (p.target.get? (j - 1)).toList by
                  simp [replay, stepOutput, hfo]]
                simp only [List.get?_eq_getElem?]
                rw [← List.take_succ, hj]
              · simp at hbt
          | Transpose w =>
              rw [hfo] at hbt
              rw [hfo] at hcost
              simp only [ArchOp.backtrack] at hbt
              split at hbt
              · obtain ⟨rfl, rfl⟩ := Prod.mk.injEq .. ▸ Option.some_inj.mp hbt
                simp only [ArchOp.cost, ArchOp.backtrack] at hcost
                rw [if_pos (by omega : i ≥ 2 ∧ j ≥ 2)] at hcost
                simp only [Option.some_bind] at hcost
                have heq : p.source.get? (i - 2) = p.target.get? (j - 2 + 1) ∧
                    p.source.get? (i - 2 + 1) = p.target.get? (j - 2) := by
                  by_contra hne
                  rw [if_neg hne] at hcost
                  simp at hcost
                have hj2 : j - 2 + 1 + 1 = j := by omega
                rw [show replay f p [⟨op, i - 2, j - 2⟩] =
                    (p.source.get? (i - 2 + 1)).toList ++
                      (p.source.get? (i - 2)).toList by
                  simp [replay, stepOutput, hfo]]
                rw [heq.1, heq.2, ← List.append_assoc]
                simp only [List.get?_eq_getElem?]
                rw [← List.take_succ, ← List.take_succ, hj2]
              · simp at hbt

/-- The weights along a backtrack chain telescope: they sum to the value
stored at the chain's top cell. -/
theorem chain_weight {α O : Type} [DecidableEq α] [Operation α O]
    {f : O → ArchOp} (hf : IsArch (α := α) f) {ops : List O} {p : SeqPair α}
    {cm : CostMatrix} (hzero : mget cm 0 0 = 0) :
    ∀ (l : List (IndexedOperation O)) (i j : Nat),
      Chain ops p cm i j 0 0 l → scriptWeight f l = mget cm i j := by
  intro l
  induction l with
  | nil =>
      intro i j hc
      cases hc
      simp [scriptWeight, hzero]
  | cons step rest ih =>
      intro i j hc
      cases hc with
      | cons hmem hcost hbt hrest =>
          rename_i i' j' op
          have hsum : scriptWeight f (⟨op, i', j'⟩ :: rest) =
              (f op).weight + scriptWeight f rest := by
            simp [scriptWeight]
          rw [hsum, ih i' j' hrest]
          rw [hf.2 op] at hcost
          rw [hf.1 op] at hbt
          obtain ⟨i'', j'', hb'', hvw⟩ := ArchOp.cost_some_elim hcost
          rw [hbt] at hb''
          obtain ⟨rfl, rfl⟩ := Prod.mk.injEq .. ▸ Option.some_inj.mp hb''
          omega

/-- The weight of a script does not depend on its order. -/
theorem scriptWeight_reverse {O : Type} (f : O → ArchOp)
    (l : List (IndexedOperation O)) :
    scriptWeight f l.reverse = scriptWeight f l := by
  simp only [scriptWeight, List.map_reverse]
  exact List.sum_reverse _

theorem ArchOp.ijDecrease_pos (o : ArchOp) : 1 ≤ o.ijDecrease := by
  cases o <;> simp [ArchOp.ijDecrease]

/-- For a measure built from the archetypes, no operation matches at the
origin cell, so the first-match backtrack comes up empty there. -/
theorem backtrack_zero_none {α O : Type} [DecidableEq α] [Operation α O]
    {f : O → ArchOp} (hf : IsArch (α := α) f) (ops : List O) (p : SeqPair α)
    (cm : CostMatrix) : backtrack ops p cm 0 0 = none := by
  cases hb : backtrack ops p cm 0 0 with
  | none => rfl
  | some op =>
      obtain ⟨-, hcost⟩ := backtrack_some_elim p cm 0 0 hb
      rw [hf.2 op,
        ArchOp.cost_none_of_backtrack_none cm (ArchOp.backtrack_zero (f op) p)]
        at hcost
      exact absurd hcost (by simp)

/-- Single-script backtracking on an archetype-built measure always
terminates within `m + n` steps, reaches the origin, and returns the
reversal of a backtrack chain. -/
theorem edit_script_go_spec {α O : Type} [DecidableEq α] [Operation α O]
    {f : O → ArchOp} (hf : IsArch (α := α) f)
    {ops : List O} {src tgt : List α} {a : Alignment α O}
    (h : align ops src tgt = some a) :
    ∀ (fuel i j : Nat), i ≤ src.length → j ≤ tgt.length → i + j < fuel →
      ∀ script : List (IndexedOperation O),
        ∃ c, Chain ops ⟨src, tgt⟩ a.cost_matrix i j 0 0 c ∧
          edit_script_go ops ⟨src, tgt⟩ a.cost_matrix fuel i j script =
            some (script ++ c).reverse := by
  intro fuel
  induction fuel with
  | zero => intro i j _ _ hlt; omega
  | succ fuel ih =>
      intro i j hi hj hlt script
      by_cases h00 : i = 0 ∧ j = 0
      · obtain ⟨rfl, rfl⟩ := h00
        refine ⟨[], Chain.nil, ?_⟩
        simp only [edit_script_go, backtrack_zero_none hf]
        simp
      · have hmem : (i, j) ∈ visitOrder src.length tgt.length :=
          mem_visitOrder.mpr ⟨hi, hj, h00⟩
        have hchar := arch_matrix_char hf h hmem
        obtain ⟨⟨op₁, hop₁, hcost₁⟩, -⟩ :=
          best_cost_some_spec (⟨src, tgt⟩ : SeqPair α) a.cost_matrix i j hchar
        obtain ⟨op₀, hb₀⟩ := backtrack_isSome_of (⟨src, tgt⟩ : SeqPair α)
          a.cost_matrix i j ⟨op₁, hop₁, hcost₁⟩
        obtain ⟨hmem₀, hcost₀⟩ := backtrack_some_elim _ _ _ _ hb₀
        have hcostArch : (f op₀).cost (⟨src, tgt⟩ : SeqPair α) a.cost_matrix i j =
            some (mget a.cost_matrix i j) := by rw [← hf.2 op₀]; exact hcost₀
        obtain ⟨i', j', hbtArch, -⟩ := ArchOp.cost_some_elim hcostArch
        have hbt : Operation.backtrack op₀ (⟨src, tgt⟩ : SeqPair α) i j =
            some (i', j') := by rw [hf.1 op₀]; exact hbtArch
        obtain ⟨hi', hj', hdec⟩ := ArchOp.backtrack_dec hbtArch
        have hpos := ArchOp.ijDecrease_pos (f op₀)
        by_cases h00' : i' = 0 ∧ j' = 0
        · refine ⟨[⟨op₀, i', j'⟩],
            Chain.cons hmem₀ hcost₀ hbt ?_, ?_⟩
          · obtain ⟨rfl, rfl⟩ := h00'
            exact Chain.nil
          · simp only [edit_script_go, hb₀, hbt]
            rw [if_pos h00']
        · obtain ⟨c', hchain', hgo'⟩ := ih i' j' (le_trans hi' hi)
            (le_trans hj' hj) (by omega) (script ++ [⟨op₀, i', j'⟩])
          refine ⟨⟨op₀, i', j'⟩ :: c',
            Chain.cons hmem₀ hcost₀ hbt hchain', ?_⟩
          simp only [edit_script_go, hb₀, hbt]
          rw [if_neg h00', hgo']
          rw [List.append_assoc]
          rfl

/-- A cell away from the origin always has an applicable operation when
the measure offers an archetype insert and an archetype delete. -/
theorem fillCells_isSome {α O : Type} [DecidableEq α] [Operation α O]
    {f : O → ArchOp} (hf : IsArch (α := α) f) {ops : List O}
    (hins : ∃ o ∈ ops, ∃ w, f o = ArchOp.Insert w)
    (hdel : ∃ o ∈ ops, ∃ w, f o = ArchOp.Delete w) (p : SeqPair α) :
    ∀ cells : List (Nat × Nat), (∀ c ∈ cells, 0 < c.1 ∨ 0 < c.2) →
      ∀ cm, (fillCells ops p cells cm).isSome := by
  intro cells
  induction cells with
  | nil => intro _ cm; simp [fillCells]
  | cons c rest ihr =>
      intro hcells cm
      have hcell : 0 < c.1 ∨ 0 < c.2 := hcells c (by simp)
      have happ : ∃ o ∈ ops, (Operation.cost o p cm c.1 c.2).isSome := by
        rcases hcell with hpos | hpos
        · obtain ⟨o, ho, w, hfo⟩ := hdel
          refine ⟨o, ho, ?_⟩
          rw [hf.2 o, hfo]
          simp [ArchOp.cost, ArchOp.backtrack, hpos]
        · obtain ⟨o, ho, w, hfo⟩ := hins
          refine ⟨o, ho, ?_⟩
          rw [hf.2 o, hfo]
          simp [ArchOp.cost, ArchOp.backtrack, hpos]
      obtain ⟨o, ho, hsome⟩ := happ
      have hbs := best_cost_isSome_of_mem p cm c.1 c.2 ho hsome
      cases hbc : best_cost ops p cm c.1 c.2 with
      | none => rw [hbc] at hbs; simp at hbs
      | some v =>
          simp only [fillCells, hbc]
          exact ihr (fun c' hc' => hcells c' (List.mem_cons_of_mem _ hc')) _

/-! ## The breadth-first enumeration -/

/-- What one pass of the inner loop of `edit_scripts` does: it appends to
the queue one state per non-completing matching operation, in operation
order, and inserts into the result set one completed script per operation
that backtracks to the origin. -/
theorem expand_spec {α O : Type} [Operation α O] [DecidableEq O] (p : SeqPair α)
    (i j : Nat) (script : List (IndexedOperation O)) :
    ∀ (opl : List O) (q : List (BacktrackState O))
      (s : Finset (List (IndexedOperation O)))
      (q' : List (BacktrackState O)) (s' : Finset (List (IndexedOperation O))),
      expand p i j script opl (q, s) = some (q', s') →
      ∃ ext, q' = q ++ ext ∧ ext.length ≤ opl.length ∧
        (∀ st ∈ ext, ∃ op ∈ opl, ∃ i' j',
            Operation.backtrack op p i j = some (i', j') ∧ ¬(i' = 0 ∧ j' = 0) ∧
            st = ⟨i', j', script ++ [⟨op, i', j'⟩]⟩) ∧
        (∀ op ∈ opl, ∀ i' j', Operation.backtrack op p i j = some (i', j') →
            ¬(i' = 0 ∧ j' = 0) →
            (⟨i', j', script ++ [⟨op, i', j'⟩]⟩ : BacktrackState O) ∈ ext) ∧
        (∀ x, x ∈ s' ↔ x ∈ s ∨ ∃ op ∈ opl,
            Operation.backtrack op p i j = some (0, 0) ∧
            x = (script ++ [(⟨op, 0, 0⟩ : IndexedOperation O)]).reverse) := by
  intro opl
  induction opl with
  | nil =>
      intro q s q' s' h
      simp only [expand, Option.some_inj, Prod.mk.injEq] at h
      obtain ⟨rfl, rfl⟩ := h
      exact ⟨[], by simp, by simp, by simp, by simp, by simp⟩
  | cons op rest ih =>
      intro q s q' s' h
      simp only [expand] at h
      cases hb : Operation.backtrack op p i j with
      | none => rw [hb] at h; simp at h
      | some pr =>
          obtain ⟨i₁, j₁⟩ := pr
          rw [hb] at h
          simp only at h
          by_cases h00 : i₁ = 0 ∧ j₁ = 0
          · rw [if_pos h00] at h
            obtain ⟨rfl, rfl⟩ := h00
            obtain ⟨ext, hq', hlen, hfwd, hbwd, hs'⟩ := ih _ _ _ _ h
            refine ⟨ext, hq', by simp; omega, ?_, ?_, ?_⟩
            · intro st hst
              obtain ⟨o, ho, i', j', hob, hne, hsteq⟩ := hfwd st hst
              exact ⟨o, List.mem_cons_of_mem _ ho, i', j', hob, hne, hsteq⟩
            · intro o ho i' j' hob hne
              rcases List.mem_cons.mp ho with rfl | hmem
              · rw [hb] at hob
                obtain ⟨rfl, rfl⟩ := Prod.mk.injEq .. ▸ Option.some_inj.mp hob
                exact absurd ⟨rfl, rfl⟩ hne
              · exact hbwd o hmem i' j' hob hne
            · intro x
              rw [hs' x, Finset.mem_insert]
              constructor
              · rintro ((hx | hx) | ⟨o, ho, hob, hxeq⟩)
                · exact Or.inr ⟨op, by simp, hb, hx⟩
                · exact Or.inl hx
                · exact Or.inr ⟨o, List.mem_cons_of_mem _ ho, hob, hxeq⟩
              · rintro (hx | ⟨o, ho, hob, hxeq⟩)
                · exact Or.inl (Or.inr hx)
                · rcases List.mem_cons.mp ho with rfl | hmem
                  · exact Or.inl (Or.inl hxeq)
                  · exact Or.inr ⟨o, hmem, hob, hxeq⟩
          · rw [if_neg h00] at h
            obtain ⟨ext₁, hq', hlen, hfwd, hbwd, hs'⟩ := ih _ _ _ _ h
            refine ⟨⟨i₁, j₁, script ++ [⟨op, i₁, j₁⟩]⟩ :: ext₁, ?_, ?_, ?_, ?_, ?_⟩
            · rw [hq', List.append_assoc]
              rfl
            · simp only [List.length_cons]
              omega
            · intro st hst
              rcases List.mem_cons.mp hst with rfl | hmem
              · exact ⟨op, by simp, i₁, j₁, hb, h00, rfl⟩
              · obtain ⟨o, ho, i', j', hob, hne, hsteq⟩ := hfwd st hmem
                exact ⟨o, List.mem_cons_of_mem _ ho, i', j', hob, hne, hsteq⟩
            · intro o ho i' j' hob hne
              rcases List.mem_cons.mp ho with rfl | hmem
              · rw [hb] at hob
                obtain ⟨rfl, rfl⟩ := Prod.mk.injEq .. ▸ Option.some_inj.mp hob
                simp
              · exact List.mem_cons_of_mem _ (hbwd o hmem i' j' hob hne)
            · intro x
              rw [hs' x]
              constructor
              · rintro (hx | ⟨o, ho, hob, hxeq⟩)
                · exact Or.inl hx
                · exact Or.inr ⟨o, List.mem_cons_of_mem _ ho, hob, hxeq⟩
              · rintro (hx | ⟨o, ho, hob, hxeq⟩)
                · exact Or.inl hx
                · rcases List.mem_cons.mp ho with rfl | hmem
                  · rw [hb] at hob
                    obtain ⟨rfl, rfl⟩ := Prod.mk.injEq .. ▸ Option.some_inj.mp hob
                    exact absurd ⟨rfl, rfl⟩ h00
                  · exact Or.inr ⟨o, hmem, hob, hxeq⟩

/-- Unfolding one step of a backtrack walk at its top cell: it either
completes immediately (one matching operation whose predecessor is the
origin) or it steps to a non-origin predecessor and continues. -/
theorem chain_decomp {α O : Type} [Operation α O] {ops : List O} {p : SeqPair α}
    {cm : CostMatrix} {i j : Nat} {x script : List (IndexedOperation O)} :
    (∃ c, Chain ops p cm i j 0 0 c ∧ c ≠ [] ∧ NoMidOrigin c ∧
        x = (script ++ c).reverse) ↔
      (∃ op ∈ backtracks ops p cm i j,
          Operation.backtrack op p i j = some (0, 0) ∧
          x = (script ++ [(⟨op, 0, 0⟩ : IndexedOperation O)]).reverse) ∨
      (∃ op ∈ backtracks ops p cm i j, ∃ i' j',
          Operation.backtrack op p i j = some (i', j') ∧ ¬(i' = 0 ∧ j' = 0) ∧
          ∃ c', Chain ops p cm i' j' 0 0 c' ∧ c' ≠ [] ∧ NoMidOrigin c' ∧
            x = ((script ++ [(⟨op, i', j'⟩ : IndexedOperation O)]) ++ c').reverse) := by
  constructor
  · rintro ⟨c, hchain, hne, hnm, rfl⟩
    cases hchain with
    | nil => exact absurd rfl hne
    | cons hmem hcost hbt hrest =>
        rename_i i' j' op c'
        by_cases h00 : i' = 0 ∧ j' = 0
        · obtain ⟨rfl, rfl⟩ := h00
          have hc' : c' = [] := by
            by_contra hc'ne
            exact hnm ⟨op, 0, 0⟩
              (by rw [List.dropLast_cons_of_ne_nil hc'ne]; simp) ⟨rfl, rfl⟩
          subst hc'
          exact Or.inl ⟨op, (mem_backtracks p cm i j).mpr ⟨hmem, hcost⟩, hbt, rfl⟩
        · have hc'ne : c' ≠ [] := by
            intro hc'
            subst hc'
            cases hrest
            exact h00 ⟨rfl, rfl⟩
          refine Or.inr ⟨op, (mem_backtracks p cm i j).mpr ⟨hmem, hcost⟩,
            i', j', hbt, h00, c', hrest, hc'ne, ?_, ?_⟩
          · intro st hst
            exact hnm st (by
              rw [List.dropLast_cons_of_ne_nil hc'ne]
              exact List.mem_cons_of_mem _ hst)
          · rw [List.append_assoc]
            rfl
  · rintro (⟨op, hop, hbt, rfl⟩ | ⟨op, hop, i', j', hbt, h00, c', hchain, hc'ne, hnm, rfl⟩)
    · obtain ⟨hmem, hcost⟩ := (mem_backtracks p cm i j).mp hop
      refine ⟨[⟨op, 0, 0⟩], Chain.cons hmem hcost hbt Chain.nil, by simp, ?_, rfl⟩
      intro st hst
      simp [List.dropLast_single] at hst
    · obtain ⟨hmem, hcost⟩ := (mem_backtracks p cm i j).mp hop
      refine ⟨⟨op, i', j'⟩ :: c', Chain.cons hmem hcost hbt hchain, by simp, ?_, ?_⟩
      · intro st hst
        rw [List.dropLast_cons_of_ne_nil hc'ne] at hst
        rcases List.mem_cons.mp hst with rfl | hst'
        · exact h00
        · exact hnm st hst'
      · rw [List.append_assoc]
        rfl

/-- What the breadth-first search returns when it terminates: each result
is a completed partial script of some queued state, and every completion
of every queued state is in the result.  Instantiated at the initial
queue, the result set is exactly the set of reversed backtrack walks from
the bottom-right cell to the first visit of the origin. -/
theorem edit_scripts_go_spec {α O : Type} [Operation α O] [DecidableEq O]
    (ops : List O) (p : SeqPair α) (cm : CostMatrix) :
    ∀ (fuel : Nat) (q : List (BacktrackState O))
      (acc S : Finset (List (IndexedOperation O))),
      edit_scripts_go ops p cm fuel q acc = some S →
      ∀ x, x ∈ S ↔ x ∈ acc ∨ ∃ st ∈ q, ∃ c,
        Chain ops p cm st.source_idx st.target_idx 0 0 c ∧ c ≠ [] ∧
        NoMidOrigin c ∧ x = (st.script ++ c).reverse := by
  intro fuel
  induction fuel with
  | zero =>
      intro q acc S h x
      cases q with
      | nil =>
          simp only [edit_scripts_go] at h
          obtain rfl := Option.some_inj.mp h
          simp
      | cons st q' => simp [edit_scripts_go] at h
  | succ fuel ih =>
      intro q acc S h x
      cases q with
      | nil =>
          simp only [edit_scripts_go] at h
          obtain rfl := Option.some_inj.mp h
          simp
      | cons st q' =>
          simp only [edit_scripts_go] at h
          cases hex : expand p st.source_idx st.target_idx st.script
              (backtracks ops p cm st.source_idx st.target_idx) (q', acc) with
          | none => rw [hex] at h; simp at h
          | some pr =>
              obtain ⟨q₁, acc₁⟩ := pr
              rw [hex] at h
              simp only at h
              have hIH := ih q₁ acc₁ S h x
              obtain ⟨ext, hq₁, -, hfwd, hbwd, hs⟩ :=
                expand_spec p _ _ _ _ _ _ _ _ hex
              rw [hIH, hs x]
              constructor
              · rintro ((hx | hcompl) | ⟨st', hst', hc⟩)
                · exact Or.inl hx
                · refine Or.inr ⟨st, by simp, ?_⟩
                  exact chain_decomp.mpr (Or.inl hcompl)
                · rw [hq₁] at hst'
                  rcases List.mem_append.mp hst' with hmem | hmem
                  · exact Or.inr ⟨st', List.mem_cons_of_mem _ hmem, hc⟩
                  · obtain ⟨op, hop, i', j', hbt, h00, rfl⟩ := hfwd st' hmem
                    refine Or.inr ⟨st, by simp, ?_⟩
                    refine chain_decomp.mpr (Or.inr ⟨op, hop, i', j', hbt, h00, ?_⟩)
                    obtain ⟨c, hchain, hne, hnm, hx⟩ := hc
                    exact ⟨c, hchain, hne, hnm, hx⟩
              · rintro (hx | ⟨st', hst', hc⟩)
                · exact Or.inl (Or.inl hx)
                · rcases List.mem_cons.mp hst' with rfl | hmem
                  · rcases chain_decomp.mp hc with hcompl | hstep
                    · exact Or.inl (Or.inr hcompl)
                    · obtain ⟨op, hop, i', j', hbt, h00, c', hchain, hne, hnm, hx⟩ :=
                        hstep
                      refine Or.inr ⟨⟨i', j', st'.script ++ [⟨op, i', j'⟩]⟩, ?_, ?_⟩
                      · rw [hq₁]
                        exact List.mem_append_right _ (hbwd op hop i' j' hbt h00)
                      · exact ⟨c', hchain, hne, hnm, hx⟩
                  · refine Or.inr ⟨st', ?_, hc⟩
                    rw [hq₁]
                    exact List.mem_append_left _ hmem

/-! ## Termination of the breadth-first enumeration -/

theorem expand_isSome {α O : Type} [Operation α O] [DecidableEq O]
    (p : SeqPair α) (i j : Nat) (script : List (IndexedOperation O)) :
    ∀ (opl : List O)
      (st : List (BacktrackState O) × Finset (List (IndexedOperation O))),
      (∀ op ∈ opl, ∃ c, Operation.backtrack op p i j = some c) →
      (expand p i j script opl st).isSome := by
  intro opl
  induction opl with
  | nil => intro st _; simp [expand]
  | cons op rest ih =>
      rintro ⟨q, s⟩ hall
      obtain ⟨⟨i', j'⟩, hb⟩ := hall op (by simp)
      simp only [expand, hb]
      split
      · exact ih _ fun o ho => hall o (List.mem_cons_of_mem _ ho)
      · exact ih _ fun o ho => hall o (List.mem_cons_of_mem _ ho)

theorem backtracks_length_le {α O : Type} [Operation α O] (ops : List O)
    (p : SeqPair α) (cm : CostMatrix) (i j : Nat) :
    (backtracks ops p cm i j).length ≤ ops.length :=
  List.length_filter_le _ _

/-- The breadth-first search of `edit_scripts` terminates on any
archetype-built measure: the queue potential bounds the number of
dequeues, because each expansion replaces one state by at most
`|ops|` states of strictly smaller index sum. -/
theorem edit_scripts_go_isSome {α O : Type} [DecidableEq α] [Operation α O]
    [DecidableEq O] {f : O → ArchOp} (hf : IsArch (α := α) f) (ops : List O)
    (p : SeqPair α) (cm : CostMatrix) :
    ∀ (fuel : Nat) (q : List (BacktrackState O))
      (acc : Finset (List (IndexedOperation O))),
      queuePotential ops.length q ≤ fuel →
      (edit_scripts_go ops p cm fuel q acc).isSome := by
  intro fuel
  induction fuel with
  | zero =>
      intro q acc hpot
      cases q with
      | nil => simp [edit_scripts_go]
      | cons st q' =>
          exfalso
          have h1 : 1 ≤ statePotential ops.length st :=
            Nat.one_le_pow _ _ (by omega)
          simp only [queuePotential, List.map_cons, List.sum_cons] at hpot
          omega
  | succ fuel ih =>
      intro q acc hpot
      cases q with
      | nil => simp [edit_scripts_go]
      | cons st q' =>
          have hbtall : ∀ op ∈ backtracks ops p cm st.source_idx st.target_idx,
              ∃ i' j', Operation.backtrack op p st.source_idx st.target_idx =
                some (i', j') ∧
                i' + j' < st.source_idx + st.target_idx := by
            intro op hop
            obtain ⟨-, hcost⟩ := (mem_backtracks p cm _ _).mp hop
            rw [hf.2 op] at hcost
            obtain ⟨i', j', hbt, -⟩ := ArchOp.cost_some_elim hcost
            obtain ⟨-, -, hdec⟩ := ArchOp.backtrack_dec hbt
            have hpos := ArchOp.ijDecrease_pos (f op)
            exact ⟨i', j', by rw [hf.1 op]; exact hbt, by omega⟩
          have hexp := expand_isSome p st.source_idx st.target_idx st.script
            (backtracks ops p cm st.source_idx st.target_idx) (q', acc)
            (fun op hop => by
              obtain ⟨i', j', hb, -⟩ := hbtall op hop
              exact ⟨(i', j'), hb⟩)
          cases hex : expand p st.source_idx st.target_idx st.script
              (backtracks ops p cm st.source_idx st.target_idx) (q', acc) with
          | none => rw [hex] at hexp; simp at hexp
          | some pr =>
              obtain ⟨q₁, acc₁⟩ := pr
              simp only [edit_scripts_go, hex]
              obtain ⟨ext, hq₁, hlen, hfwd, -, -⟩ :=
                expand_spec p _ _ _ _ _ _ _ _ hex
              refine ih q₁ acc₁ ?_
              have hsplitpot : queuePotential ops.length q₁ =
                  queuePotential ops.length q' + queuePotential ops.length ext := by
                rw [hq₁]
                simp [queuePotential]
              by_cases hs0 : st.source_idx + st.target_idx = 0
              · have hext : ext = [] := by
                  cases hext : ext with
                  | nil => rfl
                  | cons e rest =>
                      exfalso
                      obtain ⟨op, hop, i', j', hbt, -, -⟩ :=
                        hfwd e (by rw [hext]; simp)
                      obtain ⟨i'', j'', hbt', hlt⟩ := hbtall op hop
                      omega
                rw [hsplitpot, hext]
                simp only [queuePotential, List.map_nil, List.sum_nil, Nat.add_zero]
                have hstpot : statePotential ops.length st = 1 := by
                  simp [statePotential, hs0]
                simp only [queuePotential, List.map_cons, List.sum_cons,
                  hstpot] at hpot
                omega
              · have hs1 : 1 ≤ st.source_idx + st.target_idx := by omega
                set s := st.source_idx + st.target_idx with hs
                set k := ops.length with hk
                have hextpot : queuePotential k ext ≤
                    ext.length * (k + 1) ^ (s - 1) := by
                  have hmapbound : ∀ x ∈ ext.map (statePotential k),
                      x ≤ (k + 1) ^ (s - 1) := by
                    intro x hx
                    obtain ⟨st', hst', rfl⟩ := List.mem_map.mp hx
                    obtain ⟨op, hop, i', j', hbt, -, rfl⟩ := hfwd st' hst'
                    obtain ⟨i'', j'', hbt', hlt⟩ := hbtall op hop
                    rw [hbt] at hbt'
                    obtain ⟨rfl, rfl⟩ := Prod.mk.injEq .. ▸ Option.some_inj.mp hbt'
                    simp only [statePotential]
                    exact Nat.pow_le_pow_right (by omega) (by omega)
                  calc queuePotential k ext
                      ≤ (ext.map (statePotential k)).length • (k + 1) ^ (s - 1) :=
                        List.sum_le_card_nsmul _ _ hmapbound
                    _ = ext.length * (k + 1) ^ (s - 1) := by
                        rw [List.length_map, smul_eq_mul]
                have hlenk : ext.length ≤ k :=
                  le_trans hlen (backtracks_length_le ops p cm _ _)
                have hstpot : statePotential k st = (k + 1) ^ (s - 1) * (k + 1) := by
                  simp only [statePotential, ← hs]
                  conv_lhs => rw [show s = s - 1 + 1 by omega]
                  rw [pow_succ]
                have hA : 1 ≤ (k + 1) ^ (s - 1) := Nat.one_le_pow _ _ (by omega)
                simp only [queuePotential, List.map_cons, List.sum_cons] at hpot
                rw [hsplitpot]
                have hqp' : (q'.map (statePotential k)).sum =
                    queuePotential k q' := rfl
                have hBle : queuePotential k ext ≤ k * (k + 1) ^ (s - 1) := by
                  calc queuePotential k ext ≤ ext.length * (k + 1) ^ (s - 1) :=
                        hextpot
                    _ ≤ k * (k + 1) ^ (s - 1) :=
                        Nat.mul_le_mul_right _ hlenk
                have hmul : (k + 1) ^ (s - 1) * (k + 1) =
                    k * (k + 1) ^ (s - 1) + (k + 1) ^ (s - 1) := by ring
                rw [hstpot, hmul] at hpot
                omega

/-! ## Single-script backtracking produces a backtrack walk -/

/-- Whatever measure is in play, a successful run of the single-script
backtracking loop returns the reversal of a backtrack walk, and that walk
is empty only when the loop started at the origin with no matching
operation. -/
theorem edit_script_go_chain {α O : Type} [Operation α O] (ops : List O)
    (p : SeqPair α) (cm : CostMatrix) :
    ∀ (fuel i j : Nat) (script s : List (IndexedOperation O)),
      edit_script_go ops p cm fuel i j script = some s →
      ∃ c, Chain ops p cm i j 0 0 c ∧ NoMidOrigin c ∧
        s = (script ++ c).reverse ∧
        (c = [] → i = 0 ∧ j = 0 ∧ backtrack ops p cm i j = none) := by
  intro fuel
  induction fuel with
  | zero => intro i j script s h; simp [edit_script_go] at h
  | succ fuel ih =>
      intro i j script s h
      simp only [edit_script_go] at h
      cases hb : backtrack ops p cm i j with
      | none =>
          rw [hb] at h
          simp only at h
          by_cases h00 : i = 0 ∧ j = 0
          · rw [if_pos h00] at h
            obtain ⟨rfl, rfl⟩ := h00
            obtain rfl := Option.some_inj.mp h
            exact ⟨[], Chain.nil, by simp [NoMidOrigin], by simp,
              fun _ => ⟨rfl, rfl, rfl⟩⟩
          · rw [if_neg h00] at h
            simp at h
      | some op =>
          rw [hb] at h
          simp only at h
          obtain ⟨hmem, hcost⟩ := backtrack_some_elim p cm i j hb
          cases hbt : Operation.backtrack op p i j with
          | none => rw [hbt] at h; simp at h
          | some pr =>
              obtain ⟨i', j'⟩ := pr
              rw [hbt] at h
              simp only at h
              by_cases h00 : i' = 0 ∧ j' = 0
              · rw [if_pos h00] at h
                obtain rfl := Option.some_inj.mp h
                obtain ⟨rfl, rfl⟩ := h00
                refine ⟨[⟨op, 0, 0⟩], Chain.cons hmem hcost hbt Chain.nil,
                  ?_, rfl, by simp⟩
                intro st hst
                simp [List.dropLast_single] at hst
              · rw [if_neg h00] at h
                obtain ⟨c', hchain, hnm, hs, hemp⟩ := ih i' j' _ s h
                have hc'ne : c' ≠ [] := by
                  intro hc'
                  exact h00 ⟨(hemp hc').1, (hemp hc').2.1⟩
                refine ⟨⟨op, i', j'⟩ :: c', Chain.cons hmem hcost hbt hchain,
                  ?_, ?_, by simp⟩
                · intro st hst
                  rw [List.dropLast_cons_of_ne_nil hc'ne] at hst
                  rcases List.mem_cons.mp hst with rfl | hst'
                  · exact h00
                  · exact hnm st hst'
                · rw [hs, List.append_assoc]
                  rfl

/-- `distance` reads the bottom-right cell. -/
theorem distance_eq_mget {α O : Type} {a : Alignment α O} {m n : Nat}
    (h : Shape a.cost_matrix m n) :
    a.distance = mget a.cost_matrix m n := by
  unfold Alignment.distance
  rw [h.1, h.row_length (Nat.zero_le m)]
  simp

/-- Fills driven by pointwise-equal best costs produce the same matrix. -/
theorem fillCells_ext {α O : Type} [Operation α O] {ops₁ ops₂ : List O}
    {p : SeqPair α}
    (h : ∀ cm i j, best_cost ops₁ p cm i j = best_cost ops₂ p cm i j) :
    ∀ (cells : List (Nat × Nat)) (cm : CostMatrix),
      fillCells ops₁ p cells cm = fillCells ops₂ p cells cm := by
  intro cells
  induction cells with
  | nil => intro cm; rfl
  | cons c rest ih =>
      intro cm
      simp only [fillCells]
      rw [← h cm c.1 c.2]
      cases best_cost ops₁ p cm c.1 c.2 with
      | some v => exact ih _
      | none => rfl

/-! ## Identity: aligning a sequence with itself costs nothing -/

theorem diag_zero {α O : Type} [DecidableEq α] [Operation α O]
    {f : O → ArchOp} (hf : IsArch (α := α) f) {ops : List O}
    (hmatch : ∃ o ∈ ops, f o = ArchOp.Match)
    {A : List α} {a : Alignment α O} (h : align ops A A = some a) :
    ∀ i, i ≤ A.length → mget a.cost_matrix i i = 0 := by
  intro i
  induction i with
  | zero => intro _; exact align_zero_cell h
  | succ i ih =>
      intro hle
      have hmem : (i + 1, i + 1) ∈ visitOrder A.length A.length :=
        mem_visitOrder.mpr ⟨hle, hle, by omega⟩
      have hchar := arch_matrix_char hf h hmem
      obtain ⟨-, hmin⟩ := best_cost_some_spec _ _ _ _ hchar
      obtain ⟨o, ho, hfo⟩ := hmatch
      have hcost : Operation.cost o (⟨A, A⟩ : SeqPair α) a.cost_matrix
          (i + 1) (i + 1) = some 0 := by
        rw [hf.2 o, hfo]
        simp only [ArchOp.cost, ArchOp.backtrack]
        rw [if_pos (by omega : i + 1 > 0 ∧ i + 1 > 0)]
        simp only [Option.some_bind, Nat.add_sub_cancel]
        simp [ih (by omega)]
      have := hmin o ho 0 hcost
      omega

/-! ## Symmetry of the Levenshtein matrix under swapped roles -/

theorem swap_mem_levenshtein {ic sc : Nat} {op : LevenshteinOp}
    (h : op ∈ Levenshtein.new ic ic sc) :
    op.swap ∈ Levenshtein.new ic ic sc := by
  simp only [Levenshtein.new, List.mem_cons, List.not_mem_nil, or_false] at h ⊢
  rcases h with rfl | rfl | rfl | rfl <;> simp [LevenshteinOp.swap]

/-- With equal insert and delete weights, the cost of an operation at
`(i, j)` on the pair `(A, B)` equals the cost of the swapped operation at
`(j, i)` on the pair `(B, A)`, whenever the two matrices agree (transposed)
on the strictly earlier cells. -/
theorem lev_cost_swap {α : Type} [DecidableEq α] (A B : List α)
    (cm₁ cm₂ : CostMatrix) (i j : Nat)
    (hpred : ∀ i' j', i' ≤ i → j' ≤ j → i' + j' < i + j →
      mget cm₁ i' j' = mget cm₂ j' i')
    (op : LevenshteinOp) :
    Operation.cost op (⟨A, B⟩ : SeqPair α) cm₁ i j =
      Operation.cost op.swap (⟨B, A⟩ : SeqPair α) cm₂ j i := by
  rw [(levenshtein_isArch (α := α)).2 op, (levenshtein_isArch (α := α)).2 op.swap]
  cases op with
  | Insert w =>
      simp only [LevenshteinOp.swap, LevenshteinOp.toArch, ArchOp.cost,
        ArchOp.backtrack]
      by_cases hj : j > 0
      · rw [if_pos hj, if_pos hj]
        simp only [Option.map_some']
        rw [hpred i (j - 1) le_rfl (by omega) (by omega)]
      · rw [if_neg hj, if_neg hj]
        rfl
  | Delete w =>
      simp only [LevenshteinOp.swap, LevenshteinOp.toArch, ArchOp.cost,
        ArchOp.backtrack]
      by_cases hi : i > 0
      · rw [if_pos hi, if_pos hi]
        simp only [Option.map_some']
        rw [hpred (i - 1) j (by omega) le_rfl (by omega)]
      · rw [if_neg hi, if_neg hi]
        rfl
  | Match =>
      simp only [LevenshteinOp.swap, LevenshteinOp.toArch, ArchOp.cost,
        ArchOp.backtrack]
      by_cases hij : i > 0 ∧ j > 0
      · rw [if_pos hij, if_pos (by omega : j > 0 ∧ i > 0)]
        simp only [Option.some_bind]
        by_cases he : A.get? (i - 1) = B.get? (j - 1)
        · rw [if_pos he, if_pos he.symm]
          rw [hpred (i - 1) (j - 1) (by omega) (by omega) (by omega)]
        · rw [if_neg he, if_neg fun hcon => he hcon.symm]
      · rw [if_neg hij, if_neg (by omega : ¬(j > 0 ∧ i > 0))]
        rfl
  | Substitute w =>
      simp only [LevenshteinOp.swap, LevenshteinOp.toArch, ArchOp.cost,
        ArchOp.backtrack]
      by_cases hij : i > 0 ∧ j > 0
      · rw [if_pos hij, if_pos (by omega : j > 0 ∧ i > 0)]
        simp only [Option.map_some']
        rw [hpred (i - 1) (j - 1) (by omega) (by omega) (by omega)]
      · rw [if_neg hij, if_neg (by omega : ¬(j > 0 ∧ i > 0))]
        rfl

/-- Cell-by-cell symmetry of the two Levenshtein matrices. -/
theorem lev_symm_cell {α : Type} [DecidableEq α] (ic sc : Nat)
    {A B : List α} {a₁ a₂ : Alignment α LevenshteinOp}
    (h₁ : align (Levenshtein.new ic ic sc) A B = some a₁)
    (h₂ : align (Levenshtein.new ic ic sc) B A = some a₂) :
    ∀ (N i j : Nat), i + j ≤ N → i ≤ A.length → j ≤ B.length →
      mget a₁.cost_matrix i j = mget a₂.cost_matrix j i := by
  intro N
  induction N with
  | zero =>
      intro i j hij hi hj
      obtain ⟨rfl, rfl⟩ : i = 0 ∧ j = 0 := by omega
      rw [align_zero_cell h₁, align_zero_cell h₂]
  | succ N ihN =>
      intro i j hij hi hj
      rcases Nat.lt_or_ge (i + j) (N + 1) with hlt | hge
      · exact ihN i j (by omega) hi hj
      · by_cases h00 : i = 0 ∧ j = 0
        · obtain ⟨rfl, rfl⟩ := h00
          rw [align_zero_cell h₁, align_zero_cell h₂]
        · have hpred : ∀ i' j', i' ≤ i → j' ≤ j → i' + j' < i + j →
              mget a₁.cost_matrix i' j' = mget a₂.cost_matrix j' i' :=
            fun i' j' hi' hj' hlt' =>
              ihN i' j' (by omega) (le_trans hi' hi) (le_trans hj' hj)
          have hchar₁ := arch_matrix_char (levenshtein_isArch (α := α)) h₁
            (mem_visitOrder.mpr ⟨hi, hj, h00⟩)
          have hchar₂ := arch_matrix_char (levenshtein_isArch (α := α)) h₂
            (mem_visitOrder.mpr ⟨hj, hi, fun hc => h00 ⟨hc.2, hc.1⟩⟩)
          obtain ⟨⟨op₁, hmem₁, hcost₁⟩, hmin₁⟩ := best_cost_some_spec _ _ _ _ hchar₁
          obtain ⟨⟨op₂, hmem₂, hcost₂⟩, hmin₂⟩ := best_cost_some_spec _ _ _ _ hchar₂
          have hc₁ : Operation.cost op₁.swap (⟨B, A⟩ : SeqPair α)
              a₂.cost_matrix j i = some (mget a₁.cost_matrix i j) := by
            rw [← lev_cost_swap A B a₁.cost_matrix a₂.cost_matrix i j hpred op₁]
            exact hcost₁
          have hle₂₁ := hmin₂ op₁.swap (swap_mem_levenshtein hmem₁) _ hc₁
          have hpred' : ∀ i' j', i' ≤ j → j' ≤ i → i' + j' < j + i →
              mget a₂.cost_matrix i' j' = mget a₁.cost_matrix j' i' :=
            fun i' j' hi' hj' hlt' => (hpred j' i' hj' hi' (by omega)).symm
          have hc₂ : Operation.cost op₂.swap (⟨A, B⟩ : SeqPair α)
              a₁.cost_matrix i j = some (mget a₂.cost_matrix j i) := by
            rw [← lev_cost_swap B A a₂.cost_matrix a₁.cost_matrix j i hpred' op₂]
            exact hcost₂
          have hle₁₂ := hmin₁ op₂.swap (swap_mem_levenshtein hmem₂) _ hc₂
          omega

/-! ## Last helpers for the claim theorems -/

theorem chain_of_perm {α O : Type} [Operation α O] {ops₁ ops₂ : List O}
    {p : SeqPair α} {cm : CostMatrix} (hperm : ops₁.Perm ops₂) :
    ∀ {i j i₀ j₀ : Nat} {c : List (IndexedOperation O)},
      Chain ops₁ p cm i j i₀ j₀ c → Chain ops₂ p cm i j i₀ j₀ c := by
  intro i j i₀ j₀ c h
  induction h with
  | nil => exact Chain.nil
  | cons hmem hcost hbt hrest ihc =>
      exact Chain.cons (hperm.mem_iff.mp hmem) hcost hbt ihc

theorem backtracks_zero_nil {α O : Type} [DecidableEq α] [Operation α O]
    {f : O → ArchOp} (hf : IsArch (α := α) f) (ops : List O) (p : SeqPair α)
    (cm : CostMatrix) : backtracks ops p cm 0 0 = [] := by
  unfold backtracks
  rw [List.filter_eq_nil_iff]
  intro op _
  rw [hf.2 op,
    ArchOp.cost_none_of_backtrack_none cm (ArchOp.backtrack_zero (f op) p)]
  simp

/-! ## The claims -/

/-- C1: for every measure and sequences, the cost matrix built by `align`
has `(|A|+1) × (|B|+1)` cells, cell `(0,0)` is 0 and is never visited by
the fill, and every cell the fill visits receives the minimum, over the
operations applicable there, of their costs computed on the
already-filled matrix state. -/
theorem claim_C1 {α O : Type} [Operation α O] (ops : List O)
    (src tgt : List α) (a : Alignment α O) (h : align ops src tgt = some a) :
    a.cost_matrix.length = src.length + 1 ∧
    (∀ row ∈ a.cost_matrix, row.length = tgt.length + 1) ∧
    mget a.cost_matrix 0 0 = 0 ∧
    (0, 0) ∉ visitOrder src.length tgt.length ∧
    ∀ (pre suf : List (Nat × Nat)) (c : Nat × Nat),
      visitOrder src.length tgt.length = pre ++ c :: suf →
      ∃ cmPre, fillCells ops ⟨src, tgt⟩ pre
          (zeroMatrix src.length tgt.length) = some cmPre ∧
        (∃ op ∈ ops, Operation.cost op ⟨src, tgt⟩ cmPre c.1 c.2 =
          some (mget a.cost_matrix c.1 c.2)) ∧
        (∀ op ∈ ops, ∀ v, Operation.cost op ⟨src, tgt⟩ cmPre c.1 c.2 = some v →
          mget a.cost_matrix c.1 c.2 ≤ v) := by
  obtain ⟨hshape1, hshape2⟩ := align_shape h
  refine ⟨hshape1, hshape2, align_zero_cell h,
    zero_not_mem_visitOrder _ _, ?_⟩
  intro pre suf c hsplit
  obtain ⟨cmPre, hpre, -, hbest⟩ := fill_visit_spec h hsplit
  obtain ⟨hattain, hmin⟩ := best_cost_some_spec _ _ _ _ hbest
  exact ⟨cmPre, hpre, hattain, hmin⟩

/-- C2: for every measure built from the archetype operations, a
successful alignment has an edit script; replaying it against the source
rebuilds exactly the target, and its operation weights sum to the
distance. -/
theorem claim_C2 {α O : Type} [DecidableEq α] [Operation α O]
    (f : O → ArchOp) (hf : IsArch (α := α) f) (ops : List O)
    (A B : List α) (a : Alignment α O) (h : align ops A B = some a) :
    ∃ s, a.edit_script = some s ∧ replay f a.pair s = B ∧
      scriptWeight f s = a.distance := by
  obtain ⟨hmeas, hpair, -⟩ := align_elim h
  obtain ⟨c, hchain, hgo⟩ := edit_script_go_spec hf h
    (A.length + B.length + 1) A.length B.length le_rfl le_rfl (by omega) []
  refine ⟨c.reverse, ?_, ?_, ?_⟩
  · unfold Alignment.edit_script
    rw [hmeas, hpair]
    simpa using hgo
  · rw [hpair, chain_replay hf c A.length B.length hchain]
    exact List.take_length B
  · rw [scriptWeight_reverse,
      chain_weight hf (align_zero_cell h) c A.length B.length hchain,
      distance_eq_mget (align_shape h)]

/-- C3 (amended): for an archetype-built measure, every script in the set
returned by `edit_scripts` replays to the target with total weight equal
to the distance; and the single script returned by `edit_script` is a
member of that set whenever the two sequences are not both empty.  (The
all-empty case is the counterexample to the unamended claim: there
`edit_script` returns the empty script but `edit_scripts` returns the
empty set.) -/
theorem claim_C3 {α O : Type} [DecidableEq α] [Operation α O] [DecidableEq O]
    (f : O → ArchOp) (hf : IsArch (α := α) f) (ops : List O)
    (A B : List α) (a : Alignment α O) (h : align ops A B = some a)
    (fuel : Nat) (S : Finset (List (IndexedOperation O)))
    (hS : a.edit_scripts fuel = some S) :
    (∀ s ∈ S, replay f a.pair s = B ∧ scriptWeight f s = a.distance) ∧
    (∀ s, a.edit_script = some s → A ≠ [] ∨ B ≠ [] → s ∈ S) := by
  obtain ⟨hmeas, hpair, -⟩ := align_elim h
  unfold Alignment.edit_scripts at hS
  rw [hmeas, hpair] at hS
  have hspec := edit_scripts_go_spec ops ⟨A, B⟩ a.cost_matrix fuel
    [⟨A.length, B.length, []⟩] ∅ S hS
  constructor
  · intro s hs
    rw [hspec s] at hs
    rcases hs with hs | ⟨st, hst, c, hchain, -, -, hx⟩
    · simp at hs
    · obtain rfl : st = ⟨A.length, B.length, []⟩ := by
        simpa using hst
      simp only [List.nil_append] at hx
      subst hx
      constructor
      · rw [hpair, chain_replay hf c A.length B.length hchain]
        exact List.take_length B
      · rw [scriptWeight_reverse,
          chain_weight hf (align_zero_cell h) c A.length B.length hchain,
          distance_eq_mget (align_shape h)]
  · intro s hscript hne
    unfold Alignment.edit_script at hscript
    rw [hmeas, hpair] at hscript
    obtain ⟨c, hchain, hnm, hs, hemp⟩ :=
      edit_script_go_chain ops ⟨A, B⟩ a.cost_matrix _ _ _ _ _ hscript
    have hcne : c ≠ [] := by
      intro hc
      obtain ⟨hA0, hB0, -⟩ := hemp hc
      rcases hne with hne | hne
      · exact hne (List.length_eq_zero.mp hA0)
      · exact hne (List.length_eq_zero.mp hB0)
    rw [hspec s]
    exact Or.inr ⟨⟨A.length, B.length, []⟩, by simp, c, hchain, hcne, hnm,
      by simpa using hs⟩

/-- C3, as frozen, is false: aligning the empty sequence with itself under
unit-weight Levenshtein yields the empty edit script from `edit_script`,
while `edit_scripts` returns the empty set, so the single script is not a
member of the set. -/
theorem claim_C3_counterexample :
    (align (Levenshtein.new 1 1 1) ([] : List Nat) []).map
        (fun a => (a.edit_script, a.edit_scripts 1)) =
      some (some [], some ∅) ∧
    ([] : List (IndexedOperation LevenshteinOp)) ∉
      (∅ : Finset (List (IndexedOperation LevenshteinOp))) := by
  constructor
  · rfl
  · simp

/-- C4: when the operation list offers an archetype insert and an
archetype delete, every cell the fill visits has an applicable operation
whatever the matrix contents, and `align` never reaches the
`"No applicable operation"` failure. -/
theorem claim_C4 {α O : Type} [DecidableEq α] [Operation α O]
    (f : O → ArchOp) (hf : IsArch (α := α) f) (ops : List O)
    (hins : ∃ o ∈ ops, ∃ w, f o = ArchOp.Insert w)
    (hdel : ∃ o ∈ ops, ∃ w, f o = ArchOp.Delete w)
    (A B : List α) :
    (∀ cm : CostMatrix, ∀ c ∈ visitOrder A.length B.length,
      ∃ op ∈ ops, (Operation.cost op (⟨A, B⟩ : SeqPair α) cm c.1 c.2).isSome) ∧
    (align ops A B).isSome := by
  have happ : ∀ cm : CostMatrix, ∀ c ∈ visitOrder A.length B.length,
      ∃ op ∈ ops, (Operation.cost op (⟨A, B⟩ : SeqPair α) cm c.1 c.2).isSome := by
    intro cm c hc
    obtain ⟨-, -, h00⟩ := mem_visitOrder'.mp hc
    rcases (by omega : 0 < c.1 ∨ 0 < c.2) with hpos | hpos
    · obtain ⟨o, ho, w, hfo⟩ := hdel
      refine ⟨o, ho, ?_⟩
      rw [hf.2 o, hfo]
      simp [ArchOp.cost, ArchOp.backtrack, hpos]
    · obtain ⟨o, ho, w, hfo⟩ := hins
      refine ⟨o, ho, ?_⟩
      rw [hf.2 o, hfo]
      simp [ArchOp.cost, ArchOp.backtrack, hpos]
  refine ⟨happ, ?_⟩
  have hfill := fillCells_isSome hf hins hdel (⟨A, B⟩ : SeqPair α)
    (visitOrder A.length B.length)
    (fun c hc => by
      obtain ⟨-, -, h00⟩ := mem_visitOrder'.mp hc
      omega)
    (zeroMatrix A.length B.length)
  have halign : align ops A B =
      Option.map (fun cm => (⟨ops, ⟨A, B⟩, cm⟩ : Alignment α O))
        (fillCells ops ⟨A, B⟩ (visitOrder A.length B.length)
          (zeroMatrix A.length B.length)) := rfl
  rw [halign]
  cases hfc : fillCells ops (⟨A, B⟩ : SeqPair α) (visitOrder A.length B.length)
      (zeroMatrix A.length B.length) with
  | none => rw [hfc] at hfill; simp at hfill
  | some cm => simp

/-- C5: two measures whose operation lists are permutations of one another
build identical cost matrices (hence equal distances), and their
`edit_scripts` sets are identical; only the single-script tie-break can
differ. -/
theorem claim_C5 {α O : Type} [Operation α O] [DecidableEq O]
    (ops₁ ops₂ : List O) (hperm : ops₁.Perm ops₂) (A B : List α) :
    ((align ops₁ A B).map Alignment.cost_matrix =
      (align ops₂ A B).map Alignment.cost_matrix) ∧
    ∀ (a₁ a₂ : Alignment α O), align ops₁ A B = some a₁ →
      align ops₂ A B = some a₂ →
      a₁.distance = a₂.distance ∧
      ∀ (fuel₁ fuel₂ : Nat) (S₁ S₂ : Finset (List (IndexedOperation O))),
        a₁.edit_scripts fuel₁ = some S₁ → a₂.edit_scripts fuel₂ = some S₂ →
        S₁ = S₂ := by
  have hfill : ∀ cells cm, fillCells ops₁ (⟨A, B⟩ : SeqPair α) cells cm =
      fillCells ops₂ (⟨A, B⟩ : SeqPair α) cells cm :=
    fillCells_ext fun cm i j => best_cost_perm (⟨A, B⟩ : SeqPair α) cm i j hperm
  have hmat : (align ops₁ A B).map Alignment.cost_matrix =
      (align ops₂ A B).map Alignment.cost_matrix := by
    have h₁ : align ops₁ A B =
        Option.map (fun cm => (⟨ops₁, ⟨A, B⟩, cm⟩ : Alignment α O))
          (fillCells ops₁ ⟨A, B⟩ (visitOrder A.length B.length)
            (zeroMatrix A.length B.length)) := rfl
    have h₂ : align ops₂ A B =
        Option.map (fun cm => (⟨ops₂, ⟨A, B⟩, cm⟩ : Alignment α O))
          (fillCells ops₂ ⟨A, B⟩ (visitOrder A.length B.length)
            (zeroMatrix A.length B.length)) := rfl
    rw [h₁, h₂, ← hfill]
    cases fillCells ops₁ (⟨A, B⟩ : SeqPair α) (visitOrder A.length B.length)
        (zeroMatrix A.length B.length) with
    | none => rfl
    | some cm => rfl
  refine ⟨hmat, ?_⟩
  intro a₁ a₂ h₁ h₂
  have hcm : a₁.cost_matrix = a₂.cost_matrix := by
    rw [h₁, h₂] at hmat
    simpa using hmat
  constructor
  · unfold Alignment.distance
    rw [hcm]
  · intro fuel₁ fuel₂ S₁ S₂ hS₁ hS₂
    obtain ⟨hmeas₁, hpair₁, -⟩ := align_elim h₁
    obtain ⟨hmeas₂, hpair₂, -⟩ := align_elim h₂
    unfold Alignment.edit_scripts at hS₁ hS₂
    rw [hmeas₁, hpair₁] at hS₁
    rw [hmeas₂, hpair₂] at hS₂
    have hspec₁ := edit_scripts_go_spec ops₁ ⟨A, B⟩ a₁.cost_matrix fuel₁
      [⟨A.length, B.length, []⟩] ∅ S₁ hS₁
    have hspec₂ := edit_scripts_go_spec ops₂ ⟨A, B⟩ a₂.cost_matrix fuel₂
      [⟨A.length, B.length, []⟩] ∅ S₂ hS₂
    apply Finset.ext
    intro x
    rw [hspec₁ x, hspec₂ x]
    constructor
    · rintro (hx | ⟨st, hst, c, hchain, hcne, hnm, hx⟩)
      · simp at hx
      · exact Or.inr ⟨st, hst, c, hcm ▸ chain_of_perm hperm hchain, hcne, hnm, hx⟩
    · rintro (hx | ⟨st, hst, c, hchain, hcne, hnm, hx⟩)
      · simp at hx
      · exact Or.inr ⟨st, hst, c, hcm ▸ chain_of_perm hperm.symm hchain,
          hcne, hnm, hx⟩

/-- C6: aligning any sequence with itself under a measure that offers the
zero-cost match gives distance zero. -/
theorem claim_C6 {α O : Type} [DecidableEq α] [Operation α O]
    (f : O → ArchOp) (hf : IsArch (α := α) f) (ops : List O)
    (hmatch : ∃ o ∈ ops, f o = ArchOp.Match)
    (A : List α) (a : Alignment α O) (h : align ops A A = some a) :
    a.distance = 0 := by
  rw [distance_eq_mget (align_shape h)]
  exact diag_zero hf hmatch h A.length le_rfl

/-- C7: the Levenshtein measure with equal insert and delete weights gives
the same distance when the two sequences swap roles. -/
theorem claim_C7 {α : Type} [DecidableEq α] (ic sc : Nat) (A B : List α)
    (a₁ a₂ : Alignment α LevenshteinOp)
    (h₁ : align (Levenshtein.new ic ic sc) A B = some a₁)
    (h₂ : align (Levenshtein.new ic ic sc) B A = some a₂) :
    a₁.distance = a₂.distance := by
  rw [distance_eq_mget (align_shape h₁), distance_eq_mget (align_shape h₂)]
  exact lev_symm_cell ic sc h₁ h₂ (A.length + B.length) A.length B.length
    le_rfl le_rfl le_rfl

/-- C8: for every archetype operation at every cell, a `none` backtrack
forces a `none` cost, and a `some` cost is exactly the predecessor cell's
stored value plus the operation's fixed weight, the match weight being
zero. -/
theorem claim_C8 {α : Type} [DecidableEq α] (o : ArchOp) (p : SeqPair α)
    (cm : CostMatrix) (i j : Nat) :
    (o.backtrack p i j = none → o.cost p cm i j = none) ∧
    (∀ c, o.cost p cm i j = some c →
      ∃ i' j', o.backtrack p i j = some (i', j') ∧
        c = mget cm i' j' + o.weight) ∧
    ArchOp.Match.weight = 0 :=
  ⟨fun h => ArchOp.cost_none_of_backtrack_none cm h,
    fun _ h => ArchOp.cost_some_elim h, rfl⟩

/-- C9: each archetype backtrack step decreases `i + j` by exactly 1
(insert, delete), 2 (match, substitute) or 4 (transpose), and on an
archetype-built measure the breadth-first search of `edit_scripts`
terminates within `(|ops|+1) ^ (m+n)` dequeues for every alignment. -/
theorem claim_C9 {α O : Type} [DecidableEq α] [Operation α O] [DecidableEq O]
    (f : O → ArchOp) (hf : IsArch (α := α) f) :
    (∀ (p : SeqPair α) (w i j i' j' : Nat),
      ((ArchOp.Insert w).backtrack p i j = some (i', j') → i' + j' + 1 = i + j) ∧
      ((ArchOp.Delete w).backtrack p i j = some (i', j') → i' + j' + 1 = i + j) ∧
      (ArchOp.Match.backtrack p i j = some (i', j') → i' + j' + 2 = i + j) ∧
      ((ArchOp.Substitute w).backtrack p i j = some (i', j') →
        i' + j' + 2 = i + j) ∧
      ((ArchOp.Transpose w).backtrack p i j = some (i', j') →
        i' + j' + 4 = i + j)) ∧
    ∀ a : Alignment α O,
      (a.edit_scripts
        ((a.measure.length + 1) ^
          (a.pair.source.length + a.pair.target.length))).isSome := by
  constructor
  · intro p w i j i' j'
    refine ⟨fun h => ?_, fun h => ?_, fun h => ?_, fun h => ?_, fun h => ?_⟩ <;>
      · have := ArchOp.backtrack_dec h
        simp only [ArchOp.ijDecrease] at this
        omega
  · intro a
    unfold Alignment.edit_scripts
    apply edit_scripts_go_isSome hf
    simp [queuePotential, statePotential]

/-- C10: aligning the empty sequence with itself builds the 1×1 zero
matrix, distance 0, `edit_script` returns the empty script, and
`edit_scripts` returns the empty set — which therefore does not contain
the empty script. -/
theorem claim_C10 {α O : Type} [DecidableEq α] [Operation α O] [DecidableEq O]
    (f : O → ArchOp) (hf : IsArch (α := α) f) (ops : List O) :
    ∃ a : Alignment α O, align ops ([] : List α) [] = some a ∧
      a.cost_matrix = [[0]] ∧ a.distance = 0 ∧
      a.edit_script = some [] ∧
      (∀ fuel, 1 ≤ fuel → a.edit_scripts fuel = some ∅) ∧
      [] ∉ (∅ : Finset (List (IndexedOperation O))) := by
  refine ⟨⟨ops, ⟨[], []⟩, [[0]]⟩, rfl, rfl, rfl, ?_, ?_, by simp⟩
  · unfold Alignment.edit_script
    simp only [edit_script_go, List.length_nil]
    rw [backtrack_zero_none hf]
    simp
  · intro fuel hfuel
    obtain ⟨fuel', rfl⟩ : ∃ fuel', fuel = fuel' + 1 :=
      ⟨fuel - 1, by omega⟩
    unfold Alignment.edit_scripts
    simp only [edit_scripts_go, List.length_nil]
    rw [backtracks_zero_nil hf]
    simp only [expand]
    cases fuel' with
    | zero => rfl
    | succ fuel'' => rfl

/-! ## Witnesses: the claim theorems applied at concrete inputs -/

/-- Witness for C1: the unit-weight Levenshtein alignment of `[0]` and
`[1]` exists, and the claim's conclusions hold on it. -/
theorem claim_C1_witness :
    align levUnit ([0] : List Nat) [1] = some alignedSingle ∧
    alignedSingle.cost_matrix.length = 1 + 1 ∧
    mget alignedSingle.cost_matrix 0 0 = 0 :=
  ⟨rfl, (claim_C1 levUnit [0] [1] alignedSingle (by rfl)).1,
    (claim_C1 levUnit [0] [1] alignedSingle (by rfl)).2.2.1⟩

/-- Witness for C2: on the same concrete alignment, the edit script
exists, replays to the target, and its weights sum to the distance. -/
theorem claim_C2_witness :
    IsArch (α := Nat) LevenshteinOp.toArch ∧
    align levUnit ([0] : List Nat) [1] = some alignedSingle ∧
    ∃ s, alignedSingle.edit_script = some s ∧
      replay LevenshteinOp.toArch alignedSingle.pair s = [1] ∧
      scriptWeight LevenshteinOp.toArch s = alignedSingle.distance :=
  ⟨levenshtein_isArch, rfl,
    claim_C2 LevenshteinOp.toArch levenshtein_isArch levUnit [0] [1]
      alignedSingle (by rfl)⟩

/-- Witness for C3 (amended): on the concrete alignment, the single
optimal script replays correctly and is a member of the enumerated set. -/
theorem claim_C3_witness :
    align levUnit ([0] : List Nat) [1] = some alignedSingle ∧
    alignedSingle.edit_scripts 1 = some {subScript} ∧
    alignedSingle.edit_script = some subScript ∧
    (replay LevenshteinOp.toArch alignedSingle.pair subScript = [1] ∧
      scriptWeight LevenshteinOp.toArch subScript = alignedSingle.distance) ∧
    subScript ∈ ({subScript} : Finset (List (IndexedOperation LevenshteinOp))) :=
  ⟨rfl, rfl, rfl,
    (claim_C3 LevenshteinOp.toArch levenshtein_isArch levUnit [0] [1]
      alignedSingle (by rfl) 1 {subScript} (by rfl)).1 subScript (by decide),
    (claim_C3 LevenshteinOp.toArch levenshtein_isArch levUnit [0] [1]
      alignedSingle (by rfl) 1 {subScript} (by rfl)).2 subScript (by rfl)
      (Or.inl (by decide))⟩

/-- Witness for C4: the unit-weight Levenshtein measure offers insert and
delete, and aligning `[0]` with `[1]` under it never fails. -/
theorem claim_C4_witness :
    (∃ o ∈ levUnit, ∃ w, LevenshteinOp.toArch o = ArchOp.Insert w) ∧
    (∃ o ∈ levUnit, ∃ w, LevenshteinOp.toArch o = ArchOp.Delete w) ∧
    (align levUnit ([0] : List Nat) [1]).isSome :=
  ⟨⟨.Insert 1, by decide, 1, rfl⟩, ⟨.Delete 1, by decide, 1, rfl⟩,
    (claim_C4 LevenshteinOp.toArch levenshtein_isArch levUnit
      ⟨.Insert 1, by decide, 1, rfl⟩ ⟨.Delete 1, by decide, 1, rfl⟩
      [0] [1]).2⟩

/-- Witness for C5: the reordered unit-weight Levenshtein measure yields
the same distance and the same script set on `[0]` against `[1]`. -/
theorem claim_C5_witness :
    levUnit.Perm levUnitPerm ∧
    align levUnit ([0] : List Nat) [1] = some alignedSingle ∧
    align levUnitPerm ([0] : List Nat) [1] = some alignedSinglePerm ∧
    alignedSingle.edit_scripts 1 = some {subScript} ∧
    alignedSinglePerm.edit_scripts 1 = some {subScript} ∧
    alignedSingle.distance = alignedSinglePerm.distance ∧
    ({subScript} : Finset (List (IndexedOperation LevenshteinOp))) =
      {subScript} :=
  ⟨by decide, rfl, rfl, rfl, rfl,
    ((claim_C5 levUnit levUnitPerm (by decide) [0] [1]).2 alignedSingle
      alignedSinglePerm (by rfl) (by rfl)).1,
    ((claim_C5 levUnit levUnitPerm (by decide) [0] [1]).2 alignedSingle
      alignedSinglePerm (by rfl) (by rfl)).2 1 1 {subScript} {subScript} (by rfl) (by rfl)⟩

/-- Witness for C6: aligning `[0, 1]` with itself gives distance zero. -/
theorem claim_C6_witness :
    (∃ o ∈ levUnit, LevenshteinOp.toArch o = ArchOp.Match) ∧
    align levUnit ([0, 1] : List Nat) [0, 1] = some alignedPair ∧
    alignedPair.distance = 0 :=
  ⟨⟨.Match, by decide, rfl⟩, rfl,
    claim_C6 LevenshteinOp.toArch levenshtein_isArch levUnit
      ⟨.Match, by decide, rfl⟩ [0, 1] alignedPair (by rfl)⟩

/-- Witness for C7: the distances of `[0]` against `[0, 1]` and of
`[0, 1]` against `[0]` agree. -/
theorem claim_C7_witness :
    align (Levenshtein.new 1 1 1) ([0] : List Nat) [0, 1] = some alignedAB ∧
    align (Levenshtein.new 1 1 1) ([0, 1] : List Nat) [0] = some alignedBA ∧
    alignedAB.distance = alignedBA.distance :=
  ⟨rfl, rfl, claim_C7 1 1 [0] [0, 1] alignedAB alignedBA (by rfl) (by rfl)⟩

/-- Witness for C8: the match archetype is inapplicable at the origin, and
a concrete delete cost decomposes as predecessor value plus weight. -/
theorem claim_C8_witness :
    ArchOp.Match.cost (⟨[5], [7]⟩ : SeqPair Nat) [[0, 1], [1, 1]] 0 0 = none ∧
    ∃ i' j', (ArchOp.Delete 2).backtrack (⟨[5], [7]⟩ : SeqPair Nat) 1 1 =
        some (i', j') ∧
      3 = mget [[0, 1], [1, 1]] i' j' + (ArchOp.Delete 2).weight :=
  ⟨(claim_C8 ArchOp.Match ⟨[5], [7]⟩ [[0, 1], [1, 1]] 0 0).1 rfl,
    (claim_C8 (ArchOp.Delete 2) ⟨[5], [7]⟩ [[0, 1], [1, 1]] 1 1).2.1 3 rfl⟩

/-- Witness for C9: one concrete insert step decreases `i + j` by one, and
the concrete breadth-first enumeration terminates within its bound. -/
theorem claim_C9_witness :
    (ArchOp.Insert 1).backtrack (⟨[5], [7]⟩ : SeqPair Nat) 2 3 = some (2, 2) ∧
    2 + 2 + 1 = 2 + 3 ∧
    (alignedSingle.edit_scripts 25).isSome = true :=
  ⟨rfl,
    ((claim_C9 (α := Nat) LevenshteinOp.toArch levenshtein_isArch).1
      ⟨[5], [7]⟩ 1 2 3 2 2).1 rfl,
    (claim_C9 (α := Nat) LevenshteinOp.toArch levenshtein_isArch).2
      alignedSingle⟩

/-- Witness for C10: the all-empty alignment under unit-weight Levenshtein
behaves as the claim describes. -/
theorem claim_C10_witness :
    IsArch (α := Nat) LevenshteinOp.toArch ∧
    ∃ a : Alignment Nat LevenshteinOp,
      align levUnit ([] : List Nat) [] = some a ∧
      a.cost_matrix = [[0]] ∧ a.distance = 0 ∧ a.edit_script = some [] ∧
      (∀ fuel, 1 ≤ fuel → a.edit_scripts fuel = some ∅) ∧
      [] ∉ (∅ : Finset (List (IndexedOperation LevenshteinOp))) :=
  ⟨levenshtein_isArch,
    claim_C10 LevenshteinOp.toArch levenshtein_isArch levUnit⟩

end Seqalign
